import Mathlib

/-!
Verification of the N-Queens search engine (`src/level3/n_queens.py`).

The Python solver is shallowly embedded: the mutable `self.board` (a list of
lists of 0/1 ints) becomes an explicit `Board` value threaded through the
functions, Python `set`s become duplicate-free lists (`setAdd` inserts only
when absent, mirroring `set.add` on an element known to be absent;
`List.erase` mirrors `set.remove`), and the recursion on `row` is driven by
the gas value `n - row`, so that gas `0` is exactly the `row >= n` / `row == n`
base case of the source.  Machine integers are `Nat`/`Int` (Python ints are
unbounded, so no overflow modelling is needed).
-/

namespace NQueens

/-- A board is a list of rows, each row a list of 0/1 cells, as in
`self.board = [[0 ...] ...]`. -/
abbrev Board := List (List Nat)

/-- `[[0]*n]*n`: the all-zero `n × n` board built by `__init__`/`reset`. -/
def mkBoard (n : Nat) : Board :=
  List.replicate n (List.replicate n 0)

/-- Read `board[r][c]`; out-of-range reads return 0 (all in-source reads are
in range). -/
def getCell (b : Board) (r c : Nat) : Nat :=
  (b.getD r []).getD c 0

/-- Write `board[r][c] = v`. -/
def setCell (b : Board) (r c v : Nat) : Board :=
  b.set r ((b.getD r []).set c v)

/-- `is_safe(row, col)`: scan the column above and the two upper diagonals
of `board` for an existing queen.  The two `while` loops of the source take
`min row col` (upper-left) and `min row (n-1-col)` (upper-right) steps. -/
def is_safe (n : Nat) (b : Board) (row col : Nat) : Bool :=
  ((List.range row).all fun i => decide (getCell b i col ≠ 1)) &&
  ((List.range (min row col)).all fun t =>
    decide (getCell b (row - 1 - t) (col - 1 - t) ≠ 1)) &&
  ((List.range (min row (n - 1 - col))).all fun t =>
    decide (getCell b (row - 1 - t) (col + 1 + t) ≠ 1))

/-- `is_safe_optimized(row, col, cols, diag1, diag2)`: set-membership only. -/
def is_safe_optimized (row col : Nat) (cols : List Nat) (diag1 : List Int)
    (diag2 : List Nat) : Bool :=
  !decide (col ∈ cols) && !decide ((row : Int) - col ∈ diag1) &&
    !decide (row + col ∈ diag2)

/-- `set.add`: a no-op when the element is present, else insert. -/
def setAdd {α : Type} [DecidableEq α] (x : α) (l : List α) : List α :=
  if x ∈ l then l else x :: l

/-- The `for col in range(self.n)` loop body of `solve_backtrack`: try the
pending columns `cs` in order; on a safe column place the queen, run the
continuation `f` (the recursive call on `row+1`), and either propagate its
success or undo the placement, bump `backtrack_count` and move on.
State is `(found, board, backtrack_count)`. -/
def tryCols (f : Board → Nat → Bool × Board × Nat) (n row : Nat) :
    List Nat → Board → Nat → Bool × Board × Nat
  | [], b, bk => (false, b, bk)
  | c :: rest, b, bk =>
    if is_safe n b row c then
      let r := f (setCell b row c 1) bk
      if r.1 then r
      else tryCols f n row rest (setCell r.2.1 row c 0) (r.2.2 + 1)
    else tryCols f n row rest b bk

/-- `solve_backtrack(row)` with gas `= n - row`: gas `0` is the
`row >= self.n` base case. -/
def btRow (n : Nat) : Nat → Nat → Board → Nat → Bool × Board × Nat
  | 0 => fun _row b bk => (true, b, bk)
  | g + 1 => fun row b bk =>
      tryCols (fun b' bk' => btRow n g (row + 1) b' bk') n row (List.range n) b bk

/-- `solve_backtrack()` run on a fresh solver of size `n`: returns the
Python return value together with the final `board` and `backtrack_count`. -/
def solve_backtrack (n : Nat) : Bool × Board × Nat :=
  btRow n n 0 (mkBoard n) 0

/-- The mutable state of `solve_all_backtrack`: the solver fields it touches
plus the three live sets. -/
structure AllState where
  board : Board
  cols : List Nat
  diag1 : List Int
  diag2 : List Nat
  solutions : List (List (Nat × Nat))
  solution_count : Nat
  backtrack_count : Nat
  deriving Repr, DecidableEq

/-- The row-major board scan that `solve_all_backtrack` performs at
`row == self.n` to record the current solution. -/
def buildSolution (n : Nat) (b : Board) : List (Nat × Nat) :=
  (List.range n).flatMap fun r =>
    (List.range n).filterMap fun c =>
      if getCell b r c = 1 then some (r, c) else none

/-- Place a queen at `(row, c)`: board write plus the three `set.add`s. -/
def saPlace (row c : Nat) (s : AllState) : AllState :=
  { s with
    board := setCell s.board row c 1
    cols := setAdd c s.cols
    diag1 := setAdd ((row : Int) - c) s.diag1
    diag2 := setAdd (row + c) s.diag2 }

/-- Undo a placement at `(row, c)`: board write, three `set.remove`s and the
`backtrack_count` bump. -/
def saUnplace (row c : Nat) (s : AllState) : AllState :=
  { s with
    board := setCell s.board row c 0
    cols := s.cols.erase c
    diag1 := s.diag1.erase ((row : Int) - c)
    diag2 := s.diag2.erase (row + c)
    backtrack_count := s.backtrack_count + 1 }

/-- The `for col in range(self.n)` loop of `solve_all_backtrack`, with `f`
the recursive call on `row+1`. -/
def saCols (f : AllState → AllState) (row : Nat) :
    List Nat → AllState → AllState
  | [], s => s
  | c :: rest, s =>
    if is_safe_optimized row c s.cols s.diag1 s.diag2 then
      saCols f row rest (saUnplace row c (f (saPlace row c s)))
    else saCols f row rest s

/-- `solve_all_backtrack(row, cols, diag1, diag2)` with gas `= n - row`:
gas `0` is the `row == self.n` base case, which records the board scan. -/
def saRow (n : Nat) : Nat → Nat → AllState → AllState
  | 0 => fun _row s =>
      { s with
        solutions := s.solutions ++ [buildSolution n s.board]
        solution_count := s.solution_count + 1 }
  | g + 1 => fun row s => saCols (saRow n g (row + 1)) row (List.range n) s

/-- `solve_all_backtrack()` on a fresh solver of size `n` (fresh empty sets,
`row = 0`). -/
def solve_all_backtrack (n : Nat) : AllState :=
  saRow n n 0 ⟨mkBoard n, [], [], [], [], 0, 0⟩

/-- Pop queens from `positions` (most recent first, modelling the Python
list's `append`/`pop()` end) and clear their cells, while
`len(positions) > row`. -/
def popTo (row : Nat) : List (Nat × Nat) → Board → List (Nat × Nat) × Board
  | [], b => ([], b)
  | (r, c) :: rest, b =>
    if rest.length + 1 > row then popTo row rest (setCell b r c 0)
    else ((r, c) :: rest, b)

/-- One `while stack:` execution of `solve_iterative`, fuel-bounded: pop a
`(row, col)` frame, trim `positions`/`board` down to `row` queens, scan
columns `col..n-1` for the first safe one (`find?` is the `for`+`break`),
then either succeed on the last row, push the resume and next-row frames, or
count a backtrack and continue.  `none` means the fuel ran out (the source
loop always terminates; `iterGo_spec` below discharges the fuel). -/
def iterGo (n : Nat) : Nat → List (Nat × Nat) → List (Nat × Nat) → Board →
    Nat → Option (Bool × Board × Nat)
  | 0, _, _, _, _ => none
  | _ + 1, [], _pos, b, bk => some (false, b, bk)
  | f + 1, (row, col) :: stack, pos, b, bk =>
    let pb := popTo row pos b
    match (List.range' col (n - col)).find? (fun c => is_safe n pb.2 row c) with
    | some c =>
      if row = n - 1 then some (true, setCell pb.2 row c 1, bk)
      else iterGo n f ((row + 1, 0) :: (row, c + 1) :: stack)
        ((row, c) :: pb.1) (setCell pb.2 row c 1) bk
    | none => iterGo n f stack pb.1 pb.2 (bk + 1)

/-- `solve_iterative()` on a fresh solver of size `n` (fuel-bounded; the
`n == 0` early return is the source's first line). -/
def solve_iterative (n fuel : Nat) : Option (Bool × Board × Nat) :=
  if n = 0 then some (true, mkBoard n, 0)
  else iterGo n fuel [(0, 0)] [] (mkBoard n) 0

/-- The accumulator loop of `validate_solution`: walk the candidate pairs,
rejecting on any repeated row, column or diagonal id.  Coordinates are `Int`
because the Python function accepts arbitrary integer pairs. -/
def validateLoop : List (Int × Int) → List Int → List Int → List Int →
    List Int → Bool
  | [], _, _, _, _ => true
  | (r, c) :: rest, rows, cols, d1, d2 =>
    if r ∈ rows ∨ c ∈ cols ∨ (r - c) ∈ d1 ∨ (r + c) ∈ d2 then false
    else validateLoop rest (setAdd r rows) (setAdd c cols)
      (setAdd (r - c) d1) (setAdd (r + c) d2)

/-- `validate_solution(solution)` for a solver of size `n`. -/
def validate_solution (n : Nat) (sol : List (Int × Int)) : Bool :=
  if sol.length = n then validateLoop sol [] [] [] [] else false

/-- View a produced `(Nat, Nat)` solution as the integer pairs
`validate_solution` receives. -/
def toZ (sol : List (Nat × Nat)) : List (Int × Int) :=
  sol.map fun p => ((p.1 : Int), (p.2 : Int))

/-- The solver object built by `__init__` (`n` is an arbitrary Python int;
`[[0]*n]*n` over a non-positive `n` is the empty board). -/
structure Solver where
  n : Int
  board : Board
  solutions : List (List (Nat × Nat))
  solution_count : Nat
  backtrack_count : Nat
  deriving Repr, DecidableEq

/-- `NQueensSolver.__init__(n)`: no validation is performed. -/
def Solver.init (n : Int) : Solver :=
  { n := n
    board := mkBoard n.toNat
    solutions := []
    solution_count := 0
    backtrack_count := 0 }

/-- The dictionary returned by `get_statistics` (the wall-clock field is
`time.time() - start_time if start_time else 0`; with `start_time` never set
by the engine itself it is the constant 0 and is omitted here). -/
structure Statistics where
  board_size : Int
  solutions_found : Nat
  backtrack_operations : Nat
  deriving Repr, DecidableEq

/-- `get_statistics()`. -/
def get_statistics (s : Solver) : Statistics :=
  ⟨s.n, s.solution_count, s.backtrack_count⟩

/-- `solver.solve_backtrack()` as a method: run the search and store the
mutated board and backtrack count back into the solver.  For `n ≤ 0` the
source returns `True` at once (`row >= self.n`), matching `toNat`. -/
def Solver.solveFirst (s : Solver) : Bool × Solver :=
  let r := btRow s.n.toNat s.n.toNat 0 s.board s.backtrack_count
  (r.1, { s with board := r.2.1, backtrack_count := r.2.2 })

/-- `get_known_solution_counts()`. -/
def get_known_solution_counts : List (Nat × Nat) :=
  [(1, 1), (2, 0), (3, 0), (4, 2), (5, 10), (6, 4), (7, 40), (8, 92),
   (9, 352), (10, 724), (11, 2680), (12, 14200), (13, 73712), (14, 365596)]

/-- Python tuple comparison (lexicographic) on coordinate pairs, as used by
`sorted(solution)` in `analyze_symmetry`. -/
def pairLe (a b : Nat × Nat) : Bool :=
  if a.1 = b.1 then a.2 ≤ b.2 else a.1 ≤ b.1

/-- Insert into a `pairLe`-sorted list. -/
def pyInsert (x : Nat × Nat) : List (Nat × Nat) → List (Nat × Nat)
  | [] => [x]
  | y :: ys => if pairLe x y then x :: y :: ys else y :: pyInsert x ys

/-- `sorted(solution)`: a sort by Python tuple order. -/
def pySorted : List (Nat × Nat) → List (Nat × Nat)
  | [] => []
  | x :: xs => pyInsert x (pySorted xs)

/-- The counting core of `analyze_symmetry`: the size of the set
`{tuple(sorted(solution)) | solution in solutions}` it reports as
"Unique solutions (ignoring symmetry)". -/
def unique_solution_count (sols : List (List (Nat × Nat))) : Nat :=
  ((sols.map pySorted).dedup).length

/-! ### Abstract (column-list) view of the search

A partial placement is the list `qs` of the columns of the queens in rows
`0, 1, …, qs.length - 1`.  The board-based and set-based searches are both
proved equivalent to recursions over this view. -/

/-- Queens at `(r1, c1)` and `(r2, c2)` attack each other: same column or
same diagonal (`r1 - c1 = r2 - c2` is written subtraction-free as
`r1 + c2 = r2 + c1`). -/
def attacksB (r1 c1 r2 c2 : Nat) : Bool :=
  (c1 == c2) || (r1 + c2 == r2 + c1) || (r1 + c1 == r2 + c2)

/-- Column `c` is safe for the next row (`qs.length`) of placement `qs`. -/
def absSafe (qs : List Nat) (c : Nat) : Bool :=
  (List.range qs.length).all fun i => !(attacksB i (qs.getD i 0) qs.length c)

/-- `qs` is a valid (partial) placement on an `n × n` board: in-range
columns, no two queens attacking. -/
def Ok (n : Nat) (qs : List Nat) : Prop :=
  (∀ q ∈ qs, q < n) ∧
    ∀ j, j < qs.length → ∀ i, i < j →
      attacksB i (qs.getD i 0) j (qs.getD j 0) = false

instance decOk (n : Nat) (qs : List Nat) : Decidable (Ok n qs) := by
  unfold Ok; exact inferInstance

/-- `qs` is a complete N-Queens solution for board size `n`. -/
def IsSolution (n : Nat) (qs : List Nat) : Prop :=
  qs.length = n ∧ Ok n qs

instance decIsSolution (n : Nat) (qs : List Nat) : Decidable (IsSolution n qs) := by
  unfold IsSolution; exact inferInstance

/-- Abstract first-solution column loop (mirrors `tryCols`). -/
def absTry (f : List Nat → Option (List Nat)) (qs : List Nat) :
    List Nat → Option (List Nat)
  | [] => none
  | c :: rest =>
    if absSafe qs c then
      match f (qs ++ [c]) with
      | some r => some r
      | none => absTry f qs rest
    else absTry f qs rest

/-- Abstract first-solution search (mirrors `btRow`; gas `= n - row`). -/
def absRow (n : Nat) : Nat → List Nat → Option (List Nat)
  | 0 => fun qs => some qs
  | g + 1 => fun qs => absTry (absRow n g) qs (List.range n)

/-- Abstract exhaustive column loop (mirrors `saCols`). -/
def allTry (f : List Nat → List (List Nat)) (qs : List Nat) :
    List Nat → List (List Nat)
  | [] => []
  | c :: rest =>
    (if absSafe qs c then f (qs ++ [c]) else []) ++ allTry f qs rest

/-- Abstract exhaustive search (mirrors `saRow`; gas `= n - row`). -/
def allRow (n : Nat) : Nat → List Nat → List (List Nat)
  | 0 => fun qs => [qs]
  | g + 1 => fun qs => allTry (allRow n g) qs (List.range n)

/-- Solution counter, kept list-free so that small boards evaluate cheaply
inside the kernel. -/
def cntTry (f : List Nat → Nat) (qs : List Nat) : List Nat → Nat
  | [] => 0
  | c :: rest => (if absSafe qs c then f (qs ++ [c]) else 0) + cntTry f qs rest

/-- `cntRow n g qs = (allRow n g qs).length` (proved below). -/
def cntRow (n : Nat) : Nat → List Nat → Nat
  | 0 => fun _ => 1
  | g + 1 => fun qs => cntTry (cntRow n g) qs (List.range n)

/-- Row `r` of the board holding exactly the queens of `qs`: one-hot at
`qs[r]`, all-zero for rows not yet placed (`getD` default `n` is never a
column of `List.range n`). -/
def rowOf (n : Nat) (qs : List Nat) (r : Nat) : List Nat :=
  (List.range n).map fun c => if qs.getD r n = c then 1 else 0

/-- The board holding exactly the queens of the partial placement `qs`. -/
def boardOf (n : Nat) (qs : List Nat) : Board :=
  (List.range n).map (rowOf n qs)

/-- The pairs `(i, qs[i])`, row-major — what the board scan
`buildSolution` reads back from `boardOf n qs`. -/
def enumP (qs : List Nat) : List (Nat × Nat) :=
  (List.range qs.length).map fun i => (i, qs.getD i 0)

/-- The exact `cols` set-list held by `solve_all_backtrack` after placing
`qs` (most recently added first). -/
def colsOf (qs : List Nat) : List Nat :=
  qs.reverse

/-- The exact `diag1` (`row - col`) set-list after placing `qs`. -/
def diag1Of (qs : List Nat) : List Int :=
  ((List.range qs.length).map fun (i : Nat) => (i : Int) - (qs.getD i 0 : Int)).reverse

/-- The exact `diag2` (`row + col`) set-list after placing `qs`. -/
def diag2Of (qs : List Nat) : List Nat :=
  ((List.range qs.length).map fun i => i + qs.getD i 0).reverse

/-- The search states at which `solve_all_backtrack` is entered during a
run started on a fresh solver of size `n`: the initial state, and one
`place` step (board write plus the three `set.add`s) for each column that
passes the `is_safe_optimized` test. -/
inductive SAReach (n : Nat) : Nat → Board → List Nat → List Int → List Nat → Prop
  | init : SAReach n 0 (mkBoard n) [] [] []
  | step {row : Nat} {b : Board} {cs : List Nat} {d1 : List Int} {d2 : List Nat}
      {c : Nat} :
      SAReach n row b cs d1 d2 → row < n → c < n →
      is_safe_optimized row c cs d1 d2 = true →
      SAReach n (row + 1) (setCell b row c 1) (setAdd c cs)
        (setAdd ((row : Int) - c) d1) (setAdd (row + c) d2)

/-- What `solve_iterative` still has to compute when about to process the
frame `(qs.length, col)` with queens `qs` placed: finish the scan of row
`qs.length` from column `col`, and on failure pop the deepest queen `q`
and resume its row at `q + 1`.  First argument of `resumeR` is `qs`
reversed, so popping is structural. -/
def resumeF (n : Nat) (qs : List Nat) (col : Nat) : Option (List Nat) :=
  absTry (absRow n (n - qs.length - 1)) qs (List.range' col (n - col))

/-- See `resumeF`; `rev = qs.reverse`. -/
def resumeR (n : Nat) : List Nat → Nat → Option (List Nat)
  | [], col => resumeF n [] col
  | q :: rest, col =>
    match resumeF n (q :: rest).reverse col with
    | some r => some r
    | none => resumeR n rest (q + 1)

/-- The pending result of the iterative search at state `(qs, col)`. -/
def resume (n : Nat) (qs : List Nat) (col : Nat) : Option (List Nat) :=
  resumeR n qs.reverse col

/-- The resume frames below the current one on the iterative search's
stack: `(i, qs[i] + 1)` for `i = qs.length - 1, …, 1, 0`. -/
def tailFrames (qs : List Nat) : List (Nat × Nat) :=
  ((List.range qs.length).map fun i => (i, qs.getD i 0 + 1)).reverse

/-- DFS-progress measure for the iterative search: the state `(qs, col)`
strictly decreases it on both machine moves (descend after a placement,
pop after an exhausted row). -/
def iterMeasure (n : Nat) (qs : List Nat) (col : Nat) : Nat :=
  (n + 1) *
      (((List.range qs.length).map fun i =>
          (n - qs.getD i 0 - 1) * (n + 1) ^ (n - i)).sum +
        (n - col) * (n + 1) ^ (n - qs.length)) +
    qs.length

/-- Fuel sufficient for `iterGo` to finish a fresh size-`n` search. -/
def iterFuel (n : Nat) : Nat :=
  iterMeasure n [] 0 + 2

/-- Explicit solution column for row `i` of an `n`-queens board
(the classical three-case construction; valid for every `n ∉ {2, 3}`). -/
def qcol (n i : Nat) : Nat :=
  if n % 6 = 2 then
    if i < n / 2 then 2 * i + 1
    else if i = n / 2 then 2
    else if i = n / 2 + 1 then 0
    else if i = n - 1 then 4
    else 2 * (i - n / 2) + 2
  else if n % 6 = 3 then
    if i < (n - 1) / 2 - 1 then 2 * i + 3
    else if i = (n - 1) / 2 - 1 then 1
    else if i = n - 2 then 0
    else if i = n - 1 then 2
    else 2 * (i - (n - 1) / 2) + 4
  else
    if i < n / 2 then 2 * i + 1
    else 2 * (i - n / 2)

/-- The explicit solution list for size `n`. -/
def construction (n : Nat) : List Nat :=
  (List.range n).map (qcol n)

/-! ### List and board utilities -/

theorem bool_eq_of_true_iff {a b : Bool} (h : a = true ↔ b = true) : a = b := by
  cases a <;> cases b <;> simp_all

theorem getD_append_lt {α : Type} (l₁ l₂ : List α) (i : Nat) (d : α)
    (h : i < l₁.length) : (l₁ ++ l₂).getD i d = l₁.getD i d := by
  simp [List.getD_eq_getElem?_getD, List.getElem?_append_left h]

theorem getD_append_self {α : Type} (l : List α) (x d : α) :
    (l ++ [x]).getD l.length d = x := by
  simp [List.getD_eq_getElem?_getD, List.getElem?_append_right (Nat.le_refl _)]

theorem getD_of_le {α : Type} (l : List α) (i : Nat) (d : α)
    (h : l.length ≤ i) : l.getD i d = d := by
  simp [List.getD_eq_getElem?_getD, List.getElem?_eq_none h]

theorem getD_of_lt {α : Type} (l : List α) (i : Nat) (d : α)
    (h : i < l.length) : l.getD i d = l[i] := by
  simp [List.getD_eq_getElem?_getD, List.getElem?_eq_getElem h]

theorem getD_mem {α : Type} (l : List α) (i : Nat) (d : α)
    (h : i < l.length) : l.getD i d ∈ l := by
  rw [getD_of_lt _ _ _ h]; exact List.getElem_mem h

theorem length_boardOf (n : Nat) (qs : List Nat) : (boardOf n qs).length = n := by
  simp [boardOf]

theorem rowOf_append_lt (n : Nat) (qs xs : List Nat) (r : Nat)
    (h : r < qs.length) : rowOf n (qs ++ xs) r = rowOf n qs r := by
  unfold rowOf
  rw [getD_append_lt _ _ _ _ h]

theorem rowOf_of_le (n : Nat) (qs : List Nat) (r : Nat)
    (h : qs.length ≤ r) : rowOf n qs r = List.replicate n 0 := by
  unfold rowOf
  rw [getD_of_le _ _ _ h]
  apply List.ext_getElem (by simp)
  intro i h1 h2
  simp only [List.getElem_map, List.getElem_range, List.getElem_replicate]
  rw [if_neg]
  simp at h1
  omega

theorem rowOf_append_self (n : Nat) (qs : List Nat) (c : Nat) :
    rowOf n (qs ++ [c]) qs.length =
      (List.range n).map fun x => if c = x then 1 else 0 := by
  simp [rowOf, getD_append_self]

theorem set_replicate_one (n c : Nat) (hc : c < n) :
    (List.replicate n (0 : Nat)).set c 1 =
      (List.range n).map fun x => if c = x then 1 else 0 := by
  apply List.ext_getElem (by simp)
  intro i h1 h2
  rw [List.getElem_set]
  simp only [List.getElem_map, List.getElem_range, List.getElem_replicate]

theorem set_onehot_zero (n c : Nat) :
    (((List.range n).map fun x => if c = x then 1 else 0).set c 0 : List Nat) =
      List.replicate n 0 := by
  apply List.ext_getElem (by simp)
  intro i h1 h2
  rw [List.getElem_set]
  simp only [List.getElem_map, List.getElem_range, List.getElem_replicate]
  by_cases h : c = i <;> simp [h]

theorem boardOf_getD (n : Nat) (qs : List Nat) (r : Nat) (h : r < n) :
    (boardOf n qs).getD r [] = rowOf n qs r := by
  simp [boardOf, List.getD_eq_getElem?_getD, List.getElem?_range h]

theorem boardOf_nil (n : Nat) : boardOf n [] = mkBoard n := by
  apply List.ext_getElem (by simp [boardOf, mkBoard])
  intro i h1 h2
  simp only [boardOf, mkBoard, List.getElem_map, List.getElem_range,
    List.getElem_replicate]
  exact rowOf_of_le n [] i (by simp)

theorem setCell_boardOf_add (n : Nat) (qs : List Nat) (c : Nat)
    (hrow : qs.length < n) (hc : c < n) :
    setCell (boardOf n qs) qs.length c 1 = boardOf n (qs ++ [c]) := by
  unfold setCell
  rw [boardOf_getD n qs _ hrow, rowOf_of_le n qs _ (Nat.le_refl _),
    set_replicate_one n c hc, ← rowOf_append_self n qs c]
  apply List.ext_getElem (by simp [boardOf])
  intro i h1 h2
  rw [List.getElem_set]
  simp only [boardOf, List.getElem_map, List.getElem_range]
  split
  next heq => rw [heq]
  next hne =>
    by_cases hlt : i < qs.length
    · rw [rowOf_append_lt n qs [c] i hlt]
    · rw [rowOf_of_le n qs i (by omega),
        rowOf_of_le n (qs ++ [c]) i (by simp; omega)]

theorem setCell_boardOf_del (n : Nat) (qs : List Nat) (c : Nat)
    (hrow : qs.length < n) (hc : c < n) :
    setCell (boardOf n (qs ++ [c])) qs.length c 0 = boardOf n qs := by
  unfold setCell
  rw [boardOf_getD n (qs ++ [c]) _ hrow, rowOf_append_self n qs c,
    set_onehot_zero n c, ← rowOf_of_le n qs qs.length (Nat.le_refl _)]
  apply List.ext_getElem (by simp [boardOf])
  intro i h1 h2
  rw [List.getElem_set]
  simp only [boardOf, List.getElem_map, List.getElem_range]
  split
  next heq => rw [heq]
  next hne =>
    by_cases hlt : i < qs.length
    · rw [rowOf_append_lt n qs [c] i hlt]
    · rw [rowOf_of_le n qs i (by omega),
        rowOf_of_le n (qs ++ [c]) i (by simp; omega)]

theorem getCell_boardOf (n : Nat) (qs : List Nat) (r c : Nat)
    (hr : r < n) (hc : c < n) :
    getCell (boardOf n qs) r c = if qs.getD r n = c then 1 else 0 := by
  unfold getCell
  rw [boardOf_getD n qs r hr]
  simp [rowOf, List.getD_eq_getElem?_getD, List.getElem?_range hc]

theorem getCell_boardOf_one (n : Nat) (qs : List Nat) (r c : Nat)
    (hr : r < n) (hc : c < n) :
    getCell (boardOf n qs) r c = 1 ↔ r < qs.length ∧ qs.getD r 0 = c := by
  rw [getCell_boardOf n qs r c hr hc]
  by_cases h : r < qs.length
  · rw [getD_of_lt _ _ _ h, getD_of_lt _ _ _ h]
    split
    · simp_all
    · simp_all
  · rw [getD_of_le _ _ _ (by omega)]
    rw [if_neg (by omega)]
    simp
    omega

/-! ### Safety bridges: board scans and set lookups vs the abstract check -/

theorem attacksB_eq_false (r1 c1 r2 c2 : Nat) :
    attacksB r1 c1 r2 c2 = false ↔
      c1 ≠ c2 ∧ r1 + c2 ≠ r2 + c1 ∧ r1 + c1 ≠ r2 + c2 := by
  simp [attacksB, and_assoc]

theorem absSafe_iff (qs : List Nat) (c : Nat) :
    absSafe qs c = true ↔
      ∀ i, i < qs.length → attacksB i (qs.getD i 0) qs.length c = false := by
  simp [absSafe, List.all_eq_true, List.mem_range]

theorem is_safe_iff (n : Nat) (b : Board) (row col : Nat) :
    is_safe n b row col = true ↔
      (∀ i, i < row → getCell b i col ≠ 1) ∧
      (∀ t, t < row → t < col → getCell b (row - 1 - t) (col - 1 - t) ≠ 1) ∧
      (∀ t, t < row → t < n - 1 - col → getCell b (row - 1 - t) (col + 1 + t) ≠ 1) := by
  simp [is_safe, List.all_eq_true, List.mem_range, and_assoc]

theorem is_safe_boardOf (n : Nat) (qs : List Nat) (col : Nat)
    (hq : ∀ q ∈ qs, q < n) (hlen : qs.length ≤ n) (hcol : col < n) :
    is_safe n (boardOf n qs) qs.length col = absSafe qs col := by
  apply bool_eq_of_true_iff
  rw [is_safe_iff, absSafe_iff]
  constructor
  · rintro ⟨h1, h2, h3⟩ i hi
    rw [attacksB_eq_false]
    refine ⟨?_, ?_, ?_⟩
    · intro hcc
      exact h1 i hi ((getCell_boardOf_one n qs i col (by omega) hcol).2 ⟨hi, hcc⟩)
    · intro hd
      refine h2 (qs.length - 1 - i) (by omega) (by omega) ?_
      apply (getCell_boardOf_one n qs _ _ (by omega) (by omega)).2
      constructor
      · omega
      · have heq : qs.length - 1 - (qs.length - 1 - i) = i := by omega
        rw [heq]
        omega
    · intro hd
      have hqi : qs.getD i 0 < n := hq _ (getD_mem qs i 0 hi)
      refine h3 (qs.length - 1 - i) (by omega) (by omega) ?_
      apply (getCell_boardOf_one n qs _ _ (by omega) (by omega)).2
      constructor
      · omega
      · have heq : qs.length - 1 - (qs.length - 1 - i) = i := by omega
        rw [heq]
        omega
  · intro h
    refine ⟨?_, ?_, ?_⟩
    · intro i hi hcell
      obtain ⟨-, hgd⟩ := (getCell_boardOf_one n qs i col (by omega) hcol).1 hcell
      have := (attacksB_eq_false _ _ _ _).1 (h i hi)
      exact this.1 hgd
    · intro t ht1 ht2 hcell
      obtain ⟨h1, hgd⟩ :=
        (getCell_boardOf_one n qs (qs.length - 1 - t) (col - 1 - t)
          (by omega) (by omega)).1 hcell
      have := (attacksB_eq_false _ _ _ _).1 (h (qs.length - 1 - t) (by omega))
      refine this.2.1 ?_
      rw [hgd]
      omega
    · intro t ht1 ht2 hcell
      obtain ⟨h1, hgd⟩ :=
        (getCell_boardOf_one n qs (qs.length - 1 - t) (col + 1 + t)
          (by omega) (by omega)).1 hcell
      have := (attacksB_eq_false _ _ _ _).1 (h (qs.length - 1 - t) (by omega))
      refine this.2.2 ?_
      rw [hgd]
      omega

theorem mem_colsOf (qs : List Nat) (x : Nat) :
    x ∈ colsOf qs ↔ ∃ i, i < qs.length ∧ qs.getD i 0 = x := by
  rw [colsOf, List.mem_reverse, List.mem_iff_getElem]
  constructor
  · rintro ⟨i, hi, hx⟩
    exact ⟨i, hi, by rw [getD_of_lt _ _ _ hi, hx]⟩
  · rintro ⟨i, hi, hx⟩
    exact ⟨i, hi, by rw [← getD_of_lt _ _ (0 : Nat) hi, hx]⟩

theorem mem_diag1Of (qs : List Nat) (d : Int) :
    d ∈ diag1Of qs ↔ ∃ i, i < qs.length ∧ (i : Int) - (qs.getD i 0 : Int) = d := by
  simp [diag1Of, List.mem_reverse, List.mem_map, List.mem_range]

theorem mem_diag2Of (qs : List Nat) (d : Nat) :
    d ∈ diag2Of qs ↔ ∃ i, i < qs.length ∧ i + qs.getD i 0 = d := by
  simp [diag2Of, List.mem_reverse, List.mem_map, List.mem_range]

theorem is_safe_optimized_eq (qs : List Nat) (c : Nat) :
    is_safe_optimized qs.length c (colsOf qs) (diag1Of qs) (diag2Of qs) =
      absSafe qs c := by
  apply bool_eq_of_true_iff
  rw [absSafe_iff]
  simp only [is_safe_optimized, Bool.and_eq_true, Bool.not_eq_true',
    decide_eq_false_iff_not, and_assoc]
  constructor
  · rintro ⟨h1, h2, h3⟩ i hi
    rw [attacksB_eq_false]
    refine ⟨?_, ?_, ?_⟩
    · intro hcc
      exact h1 ((mem_colsOf qs c).2 ⟨i, hi, hcc⟩)
    · intro hd
      refine h2 ((mem_diag1Of qs _).2 ⟨i, hi, ?_⟩)
      omega
    · intro hd
      refine h3 ((mem_diag2Of qs _).2 ⟨i, hi, ?_⟩)
      omega
  · intro h
    refine ⟨?_, ?_, ?_⟩
    · intro hmem
      obtain ⟨i, hi, hx⟩ := (mem_colsOf qs c).1 hmem
      exact ((attacksB_eq_false _ _ _ _).1 (h i hi)).1 hx
    · intro hmem
      obtain ⟨i, hi, hx⟩ := (mem_diag1Of qs _).1 hmem
      refine ((attacksB_eq_false _ _ _ _).1 (h i hi)).2.1 ?_
      omega
    · intro hmem
      obtain ⟨i, hi, hx⟩ := (mem_diag2Of qs _).1 hmem
      refine ((attacksB_eq_false _ _ _ _).1 (h i hi)).2.2 ?_
      omega

/-! ### Valid placements -/

theorem Ok_nil (n : Nat) : Ok n [] := by
  constructor
  · simp
  · intro j hj
    simp at hj

theorem Ok_append (n : Nat) (qs : List Nat) (c : Nat) (hOk : Ok n qs)
    (hc : c < n) (hsafe : absSafe qs c = true) : Ok n (qs ++ [c]) := by
  constructor
  · intro q hq
    rcases List.mem_append.1 hq with h | h
    · exact hOk.1 q h
    · simp at h
      omega
  · intro j hj i hi
    simp only [List.length_append, List.length_cons, List.length_nil] at hj
    by_cases hjl : j < qs.length
    · rw [getD_append_lt _ _ _ _ (by omega), getD_append_lt _ _ _ _ hjl]
      exact hOk.2 j hjl i hi
    · have hje : j = qs.length := by omega
      subst hje
      rw [getD_append_lt _ _ _ _ (by omega), getD_append_self]
      exact (absSafe_iff qs c).1 hsafe i hi

theorem getD_take (l : List Nat) (m i : Nat) (h : i < m) :
    (l.take m).getD i 0 = l.getD i 0 := by
  simp [List.getD_eq_getElem?_getD, List.getElem?_take_of_lt h]

theorem absSafe_take (n : Nat) (sol : List Nat) (m : Nat) (hOk : Ok n sol)
    (hm : m < sol.length) : absSafe (sol.take m) (sol.getD m 0) = true := by
  rw [absSafe_iff]
  have hlen : (sol.take m).length = m := by
    simp
    omega
  rw [hlen]
  intro i hi
  rw [getD_take _ _ _ hi]
  exact hOk.2 m hm i hi

theorem take_succ_getD (l : List Nat) (m : Nat) (h : m < l.length) :
    l.take (m + 1) = l.take m ++ [l.getD m 0] := by
  rw [List.take_succ, getD_of_lt _ _ _ h, List.getElem?_eq_getElem h]
  rfl

/-! ### The recursive first-solution search computes `absRow` -/

theorem tryCols_sim (n g : Nat)
    (IH : ∀ qs b bk, b = boardOf n qs → qs.length + g = n →
      (∀ q ∈ qs, q < n) →
      ∃ bk', btRow n g qs.length b bk =
        (match absRow n g qs with
          | some res => (true, boardOf n res, bk')
          | none => (false, boardOf n qs, bk'))) :
    ∀ cs qs b bk, b = boardOf n qs → qs.length + (g + 1) = n →
      (∀ q ∈ qs, q < n) → (∀ c ∈ cs, c < n) →
      ∃ bk', tryCols (fun b' bk' => btRow n g (qs.length + 1) b' bk') n
          qs.length cs b bk =
        (match absTry (absRow n g) qs cs with
          | some res => (true, boardOf n res, bk')
          | none => (false, boardOf n qs, bk')) := by
  intro cs
  induction cs with
  | nil =>
    intro qs b bk hb hg hq hcs
    exact ⟨bk, by simp [tryCols, absTry, hb]⟩
  | cons c rest ih =>
    intro qs b bk hb hg hq hcs
    subst hb
    have hc : c < n := hcs c (by simp)
    have hsafe : is_safe n (boardOf n qs) qs.length c = absSafe qs c :=
      is_safe_boardOf n qs c hq (by omega) hc
    by_cases hs : absSafe qs c = true
    · have hb1 : setCell (boardOf n qs) qs.length c 1 = boardOf n (qs ++ [c]) :=
        setCell_boardOf_add n qs c (by omega) hc
      have hql : (qs ++ [c]).length = qs.length + 1 := by simp
      obtain ⟨bk1, hrec⟩ := IH (qs ++ [c]) (setCell (boardOf n qs) qs.length c 1)
        bk hb1 (by simp; omega)
        (by intro q hqm
            rcases List.mem_append.1 hqm with h | h
            · exact hq q h
            · simp at h
              omega)
      rw [hql] at hrec
      cases habs : absRow n g (qs ++ [c]) with
      | some res =>
        refine ⟨bk1, ?_⟩
        rw [habs] at hrec
        simp only [tryCols, hsafe, hs, if_true, hrec, absTry, habs]
      | none =>
        rw [habs] at hrec
        have hdel : setCell (boardOf n (qs ++ [c])) qs.length c 0 = boardOf n qs :=
          setCell_boardOf_del n qs c (by omega) hc
        obtain ⟨bk2, hrest⟩ := ih qs (boardOf n qs) (bk1 + 1) rfl hg hq
          (fun x hx => hcs x (by simp [hx]))
        refine ⟨bk2, ?_⟩
        simp only [tryCols, hsafe, hs, if_true, hrec, absTry, habs]
        rw [hdel]
        exact hrest
    · have hs' : absSafe qs c = false := by
        cases h : absSafe qs c
        · rfl
        · exact absurd h hs
      obtain ⟨bk2, hrest⟩ := ih qs (boardOf n qs) bk rfl hg hq
        (fun x hx => hcs x (by simp [hx]))
      refine ⟨bk2, ?_⟩
      simp only [tryCols, hsafe, hs', if_false, absTry, Bool.false_eq_true]
      exact hrest

theorem btRow_sim (n : Nat) : ∀ g qs b bk, b = boardOf n qs →
    qs.length + g = n → (∀ q ∈ qs, q < n) →
    ∃ bk', btRow n g qs.length b bk =
      (match absRow n g qs with
        | some res => (true, boardOf n res, bk')
        | none => (false, boardOf n qs, bk')) := by
  intro g
  induction g with
  | zero =>
    intro qs b bk hb hg hq
    exact ⟨bk, by simp [btRow, absRow, hb]⟩
  | succ g ih =>
    intro qs b bk hb hg hq
    have := tryCols_sim n g ih (List.range n) qs b bk hb hg hq
      (by intro c hcm; exact List.mem_range.1 hcm)
    simpa [btRow, absRow] using this

theorem solve_backtrack_sim (n : Nat) :
    ∃ bk', solve_backtrack n =
      (match absRow n n [] with
        | some res => (true, boardOf n res, bk')
        | none => (false, mkBoard n, bk')) := by
  obtain ⟨bk', h⟩ := btRow_sim n n [] (mkBoard n) 0 (boardOf_nil n).symm
    (by simp) (by simp)
  refine ⟨bk', ?_⟩
  rw [solve_backtrack]
  simp only [List.length_nil] at h
  rw [h, boardOf_nil]

/-! ### Soundness and completeness of the abstract search -/

theorem absTry_eq_none (f : List Nat → Option (List Nat)) (qs : List Nat) :
    ∀ cs, absTry f qs cs = none ↔
      ∀ c ∈ cs, absSafe qs c = true → f (qs ++ [c]) = none := by
  intro cs
  induction cs with
  | nil => simp [absTry]
  | cons c rest ih =>
    by_cases hs : absSafe qs c = true
    · cases hf : f (qs ++ [c]) with
      | some r =>
        simp only [absTry, hs, if_true, hf]
        constructor
        · intro h
          exact absurd h (by simp)
        · intro h
          have := h c (by simp) hs
          rw [hf] at this
          exact absurd this (by simp)
      | none =>
        simp only [absTry, hs, if_true, hf, ih]
        constructor
        · intro h x hx hsx
          rcases List.mem_cons.1 hx with rfl | hx'
          · exact hf
          · exact h x hx' hsx
        · intro h x hx hsx
          exact h x (by simp [hx]) hsx
    · have hs' : absSafe qs c = false := by
        cases h : absSafe qs c
        · rfl
        · exact absurd h hs
      simp only [absTry, hs', Bool.false_eq_true, if_false, ih]
      constructor
      · intro h x hx hsx
        rcases List.mem_cons.1 hx with rfl | hx'
        · rw [hs'] at hsx
          exact absurd hsx (by simp)
        · exact h x hx' hsx
      · intro h x hx hsx
        exact h x (by simp [hx]) hsx

theorem absTry_eq_some (f : List Nat → Option (List Nat)) (qs : List Nat)
    (res : List Nat) :
    ∀ cs, absTry f qs cs = some res →
      ∃ c ∈ cs, absSafe qs c = true ∧ f (qs ++ [c]) = some res := by
  intro cs
  induction cs with
  | nil => simp [absTry]
  | cons c rest ih =>
    intro h
    by_cases hs : absSafe qs c = true
    · cases hf : f (qs ++ [c]) with
      | some r =>
        simp only [absTry, hs, if_true, hf] at h
        exact ⟨c, by simp, hs, by rw [hf, h]⟩
      | none =>
        simp only [absTry, hs, if_true, hf] at h
        obtain ⟨x, hx, hsx, hfx⟩ := ih h
        exact ⟨x, by simp [hx], hsx, hfx⟩
    · have hs' : absSafe qs c = false := by
        cases hb : absSafe qs c
        · rfl
        · exact absurd hb hs
      simp only [absTry, hs', Bool.false_eq_true, if_false] at h
      obtain ⟨x, hx, hsx, hfx⟩ := ih h
      exact ⟨x, by simp [hx], hsx, hfx⟩

theorem absRow_sound (n : Nat) : ∀ g qs res, qs.length + g = n → Ok n qs →
    absRow n g qs = some res →
    IsSolution n res ∧ res.take qs.length = qs := by
  intro g
  induction g with
  | zero =>
    intro qs res hg hOk h
    simp only [absRow, Option.some.injEq] at h
    subst h
    exact ⟨⟨by omega, hOk⟩, List.take_length qs⟩
  | succ g ih =>
    intro qs res hg hOk h
    simp only [absRow] at h
    obtain ⟨c, hc, hsafe, hf⟩ := absTry_eq_some _ _ _ _ h
    have hcn : c < n := List.mem_range.1 hc
    obtain ⟨hsol, htake⟩ := ih (qs ++ [c]) res (by simp; omega)
      (Ok_append n qs c hOk hcn hsafe) hf
    refine ⟨hsol, ?_⟩
    have h1 : res.take qs.length = (res.take (qs.length + 1)).take qs.length := by
      rw [List.take_take]
      congr 1
      omega
    simp only [List.length_append, List.length_cons, List.length_nil,
      Nat.zero_add] at htake
    rw [h1, htake]
    exact List.take_left qs [c]

theorem absRow_complete (n : Nat) : ∀ g qs, qs.length + g = n →
    (∃ sol, IsSolution n sol ∧ sol.take qs.length = qs) →
    absRow n g qs ≠ none := by
  intro g
  induction g with
  | zero =>
    intro qs hg hex
    simp [absRow]
  | succ g ih =>
    intro qs hg hex hnone
    obtain ⟨sol, ⟨hslen, hsOk⟩, htake⟩ := hex
    have hm : qs.length < sol.length := by omega
    set c := sol.getD qs.length 0 with hc
    have hcn : c < n := hsOk.1 c (getD_mem sol qs.length 0 hm)
    have hsafe : absSafe qs c = true := by
      rw [← htake]
      exact absSafe_take n sol qs.length hsOk hm
    simp only [absRow] at hnone
    have hfn := (absTry_eq_none _ _ _).1 hnone c (List.mem_range.2 hcn) hsafe
    refine ih (qs ++ [c]) (by simp; omega) ⟨sol, ⟨hslen, hsOk⟩, ?_⟩ hfn
    have h2 : (qs ++ [c]).length = qs.length + 1 := by simp
    rw [h2, take_succ_getD sol qs.length hm, htake]

/-! ### The classical explicit solutions: N-Queens is solvable for every
positive `n` other than 2 and 3 -/

theorem qcol_lt (n i : Nat) (hn2 : n ≠ 2) (hn3 : n ≠ 3) (hn : 0 < n)
    (hi : i < n) : qcol n i < n := by
  unfold qcol
  split_ifs <;> omega

theorem qcol_no_attack (n i j : Nat) (hn2 : n ≠ 2) (hn3 : n ≠ 3)
    (hij : i < j) (hj : j < n) :
    attacksB i (qcol n i) j (qcol n j) = false := by
  rw [attacksB_eq_false]
  unfold qcol
  split_ifs <;> omega

theorem construction_getD (n i : Nat) (h : i < n) :
    (construction n).getD i 0 = qcol n i := by
  simp [construction, List.getD_eq_getElem?_getD, List.getElem?_range h]

theorem construction_sol (n : Nat) (hn2 : n ≠ 2) (hn3 : n ≠ 3) (hn : 0 < n) :
    IsSolution n (construction n) := by
  refine ⟨by simp [construction], ?_, ?_⟩
  · intro q hq
    simp only [construction, List.mem_map, List.mem_range] at hq
    obtain ⟨i, hi, rfl⟩ := hq
    exact qcol_lt n i hn2 hn3 hn hi
  · intro j hj i hi
    simp only [construction, List.length_map, List.length_range] at hj
    rw [construction_getD n i (by omega), construction_getD n j hj]
    exact qcol_no_attack n i j hn2 hn3 hi hj

/-- C1: for every positive board size, `solve_backtrack` on a fresh solver
returns `False` exactly when no N-Queens solution exists; among positive
sizes that happens exactly for N = 2 and N = 3; and for N = 1 the search
succeeds with the single queen at `(0, 0)` (board `[[1]]`, no backtracks). -/
theorem solve_backtrack_none_iff_no_solution (n : Nat) (hn : 0 < n) :
    ((solve_backtrack n).1 = false ↔ ¬ ∃ qs, IsSolution n qs) ∧
    ((¬ ∃ qs, IsSolution n qs) ↔ n = 2 ∨ n = 3) ∧
    (n = 1 → solve_backtrack n = (true, [[1]], 0) ∧
      buildSolution 1 (solve_backtrack n).2.1 = [(0, 0)]) := by
  obtain ⟨bk', hsim⟩ := solve_backtrack_sim n
  refine ⟨?_, ?_, ?_⟩
  · constructor
    · intro hfalse hex
      obtain ⟨sol, hsol⟩ := hex
      cases habs : absRow n n [] with
      | some res =>
        rw [habs] at hsim
        rw [hsim] at hfalse
        exact absurd hfalse (by simp)
      | none =>
        exact absRow_complete n n [] (by simp) ⟨sol, hsol, by simp⟩ habs
    · intro hnone
      cases habs : absRow n n [] with
      | some res =>
        obtain ⟨hsol, -⟩ := absRow_sound n n [] res (by simp) (Ok_nil n) habs
        exact absurd ⟨res, hsol⟩ hnone
      | none =>
        rw [habs] at hsim
        rw [hsim]
  · constructor
    · intro hnone
      by_contra hor
      push_neg at hor
      exact hnone ⟨construction n, construction_sol n hor.1 hor.2 hn⟩
    · rintro (rfl | rfl) ⟨sol, hsol⟩
      · exact absRow_complete 2 2 [] (by simp) ⟨sol, hsol, by simp⟩ (by decide)
      · exact absRow_complete 3 3 [] (by simp) ⟨sol, hsol, by simp⟩ (by decide)
  · rintro rfl
    exact ⟨by decide, by decide⟩

/-- C1 witness at N = 1. -/
theorem solve_backtrack_none_iff_no_solution_witness :
    ((solve_backtrack 1).1 = false ↔ ¬ ∃ qs, IsSolution 1 qs) ∧
    ((¬ ∃ qs, IsSolution 1 qs) ↔ 1 = 2 ∨ 1 = 3) ∧
    (1 = 1 → solve_backtrack 1 = (true, [[1]], 0) ∧
      buildSolution 1 (solve_backtrack 1).2.1 = [(0, 0)]) :=
  solve_backtrack_none_iff_no_solution 1 (by decide)

/-! ### The exhaustive search computes `allRow` -/

theorem colsOf_append (qs : List Nat) (c : Nat) :
    colsOf (qs ++ [c]) = c :: colsOf qs := by
  simp [colsOf]

theorem map_range_append_getD {α : Type} (qs : List Nat) (c : Nat)
    (f : Nat → Nat → α) :
    (List.range (qs.length + 1)).map (fun i => f i ((qs ++ [c]).getD i 0)) =
      ((List.range qs.length).map fun i => f i (qs.getD i 0)) ++
        [f qs.length c] := by
  rw [List.range_succ, List.map_append]
  congr 1
  · apply List.map_congr_left
    intro i hi
    rw [getD_append_lt _ _ _ _ (List.mem_range.1 hi)]
  · simp [getD_append_self]

theorem diag1Of_append (qs : List Nat) (c : Nat) :
    diag1Of (qs ++ [c]) = ((qs.length : Int) - (c : Int)) :: diag1Of qs := by
  unfold diag1Of
  have hl : (qs ++ [c]).length = qs.length + 1 := by simp
  rw [hl, map_range_append_getD qs c (fun (i : Nat) (q : Nat) => (i : Int) - (q : Int)),
    List.reverse_append]
  rfl

theorem diag2Of_append (qs : List Nat) (c : Nat) :
    diag2Of (qs ++ [c]) = (qs.length + c) :: diag2Of qs := by
  unfold diag2Of
  have hl : (qs ++ [c]).length = qs.length + 1 := by simp
  rw [hl, map_range_append_getD qs c (fun (i : Nat) (q : Nat) => i + q),
    List.reverse_append]
  rfl

theorem setAdd_of_not_mem {α : Type} [DecidableEq α] (x : α) (l : List α)
    (h : x ∉ l) : setAdd x l = x :: l := by
  simp [setAdd, h]

theorem not_mem_of_absSafe (qs : List Nat) (c : Nat)
    (h : absSafe qs c = true) :
    c ∉ colsOf qs ∧ ((qs.length : Int) - (c : Int)) ∉ diag1Of qs ∧
      (qs.length + c) ∉ diag2Of qs := by
  have heq := is_safe_optimized_eq qs c
  rw [h] at heq
  simpa [is_safe_optimized, and_assoc] using heq

theorem filterMap_congr_mem {α β : Type} (l : List α) (f g : α → Option β)
    (h : ∀ a ∈ l, f a = g a) : l.filterMap f = l.filterMap g := by
  induction l with
  | nil => rfl
  | cons a t ih =>
    simp only [List.filterMap_cons, h a (by simp)]
    rw [ih fun x hx => h x (by simp [hx])]

theorem filterMap_range_single {α : Type} (n a : Nat) (f : Nat → α)
    (ha : a < n) :
    ((List.range n).filterMap fun c => if a = c then some (f c) else none) =
      [f a] := by
  induction n with
  | zero => omega
  | succ m ih =>
    rw [List.range_succ, List.filterMap_append]
    by_cases h : a < m
    · rw [ih h]
      simp only [List.filterMap_cons]
      rw [if_neg (by omega)]
      rfl
    · have ha' : a = m := by omega
      subst ha'
      simp only [List.filterMap_cons, if_pos rfl]
      rw [List.filterMap_eq_nil_iff.2 ?_]
      · rfl
      · intro c hc
        rw [if_neg (by simp at hc; omega)]

theorem flatMap_singleton_map {α β : Type} (l : List α) (f : α → β) :
    (l.flatMap fun a => [f a]) = l.map f := by
  induction l with
  | nil => rfl
  | cons a t ih => simp [List.flatMap_cons, ih]

theorem flatMap_congr_mem {α β : Type} (l : List α) (f g : α → List β)
    (h : ∀ a ∈ l, f a = g a) : l.flatMap f = l.flatMap g := by
  induction l with
  | nil => rfl
  | cons a t ih =>
    simp only [List.flatMap_cons, h a (by simp)]
    rw [ih fun x hx => h x (by simp [hx])]

theorem buildSolution_boardOf (n : Nat) (qs : List Nat)
    (hlen : qs.length = n) (hq : ∀ q ∈ qs, q < n) :
    buildSolution n (boardOf n qs) = enumP qs := by
  unfold buildSolution
  have hrow : ∀ r ∈ List.range n,
      ((List.range n).filterMap fun c =>
        if getCell (boardOf n qs) r c = 1 then some (r, c) else none) =
      [(r, qs.getD r 0)] := by
    intro r hr
    have hrn : r < n := List.mem_range.1 hr
    have hstep : ((List.range n).filterMap fun c =>
        if getCell (boardOf n qs) r c = 1 then some (r, c) else none) =
        (List.range n).filterMap fun c =>
          if qs.getD r 0 = c then some (r, c) else none := by
      apply filterMap_congr_mem
      intro c hc
      have hcn : c < n := List.mem_range.1 hc
      have h1 := getCell_boardOf_one n qs r c hrn hcn
      by_cases hcell : getCell (boardOf n qs) r c = 1
      · rw [if_pos hcell, if_pos (h1.1 hcell).2]
      · rw [if_neg hcell, if_neg ?_]
        intro hgd
        exact hcell (h1.2 ⟨by omega, hgd⟩)
    rw [hstep]
    exact filterMap_range_single n (qs.getD r 0) (fun c => (r, c))
      (hq _ (getD_mem qs r 0 (by omega)))
  calc (List.range n).flatMap (fun r => (List.range n).filterMap fun c =>
          if getCell (boardOf n qs) r c = 1 then some (r, c) else none)
      = (List.range n).flatMap fun r => [(r, qs.getD r 0)] :=
        flatMap_congr_mem _ _ _ hrow
    _ = enumP qs := by
        rw [flatMap_singleton_map, enumP, hlen]

theorem saCols_sim (n g : Nat)
    (IH : ∀ qs sols sc bk, qs.length + g = n → (∀ q ∈ qs, q < n) →
      ∃ k, saRow n g qs.length
          ⟨boardOf n qs, colsOf qs, diag1Of qs, diag2Of qs, sols, sc, bk⟩ =
        ⟨boardOf n qs, colsOf qs, diag1Of qs, diag2Of qs,
          sols ++ (allRow n g qs).map enumP,
          sc + (allRow n g qs).length, bk + k⟩) :
    ∀ cs qs sols sc bk, qs.length + (g + 1) = n → (∀ q ∈ qs, q < n) →
      (∀ c ∈ cs, c < n) →
      ∃ k, saCols (saRow n g (qs.length + 1)) qs.length cs
          ⟨boardOf n qs, colsOf qs, diag1Of qs, diag2Of qs, sols, sc, bk⟩ =
        ⟨boardOf n qs, colsOf qs, diag1Of qs, diag2Of qs,
          sols ++ (allTry (allRow n g) qs cs).map enumP,
          sc + (allTry (allRow n g) qs cs).length, bk + k⟩ := by
  intro cs
  induction cs with
  | nil =>
    intro qs sols sc bk hg hq hcs
    exact ⟨0, by simp [saCols, allTry]⟩
  | cons c rest ih =>
    intro qs sols sc bk hg hq hcs
    have hc : c < n := hcs c (by simp)
    have hsafe : is_safe_optimized qs.length c (colsOf qs) (diag1Of qs)
        (diag2Of qs) = absSafe qs c := is_safe_optimized_eq qs c
    by_cases hs : absSafe qs c = true
    · obtain ⟨hnc, hnd1, hnd2⟩ := not_mem_of_absSafe qs c hs
      have hql : (qs ++ [c]).length = qs.length + 1 := by simp
      have hq' : ∀ q ∈ qs ++ [c], q < n := by
        intro q hqm
        rcases List.mem_append.1 hqm with h | h
        · exact hq q h
        · simp at h
          omega
      obtain ⟨k1, hrec⟩ := IH (qs ++ [c]) sols sc bk (by simp; omega) hq'
      rw [hql, colsOf_append, diag1Of_append, diag2Of_append] at hrec
      obtain ⟨k2, hrest⟩ := ih qs (sols ++ (allRow n g (qs ++ [c])).map enumP)
        (sc + (allRow n g (qs ++ [c])).length) (bk + k1 + 1) hg hq
        (fun x hx => hcs x (by simp [hx]))
      refine ⟨k1 + 1 + k2, ?_⟩
      simp only [saCols, hsafe, hs, if_true, saPlace]
      rw [setCell_boardOf_add n qs c (by omega) hc,
        setAdd_of_not_mem _ _ hnc, setAdd_of_not_mem _ _ hnd1,
        setAdd_of_not_mem _ _ hnd2, hrec]
      simp only [saUnplace]
      rw [List.erase_cons_head, List.erase_cons_head, List.erase_cons_head,
        setCell_boardOf_del n qs c (by omega) hc]
      rw [hrest]
      simp only [allTry, hs, if_true, List.map_append, List.length_append,
        AllState.mk.injEq, List.append_assoc]
      and_intros <;> first | trivial | omega
    · have hs' : absSafe qs c = false := by
        cases h : absSafe qs c
        · rfl
        · exact absurd h hs
      obtain ⟨k2, hrest⟩ := ih qs sols sc bk hg hq
        (fun x hx => hcs x (by simp [hx]))
      refine ⟨k2, ?_⟩
      simp only [saCols, hsafe, hs', Bool.false_eq_true, if_false]
      rw [hrest]
      simp [allTry, hs']

theorem saRow_sim (n : Nat) : ∀ g qs sols sc bk, qs.length + g = n →
    (∀ q ∈ qs, q < n) →
    ∃ k, saRow n g qs.length
        ⟨boardOf n qs, colsOf qs, diag1Of qs, diag2Of qs, sols, sc, bk⟩ =
      ⟨boardOf n qs, colsOf qs, diag1Of qs, diag2Of qs,
        sols ++ (allRow n g qs).map enumP,
        sc + (allRow n g qs).length, bk + k⟩ := by
  intro g
  induction g with
  | zero =>
    intro qs sols sc bk hg hq
    refine ⟨0, ?_⟩
    simp only [saRow, allRow, List.map_cons, List.map_nil, List.length_cons,
      List.length_nil, Nat.zero_add, Nat.add_zero]
    rw [buildSolution_boardOf n qs (by omega) hq]
  | succ g ih =>
    intro qs sols sc bk hg hq
    have := saCols_sim n g ih (List.range n) qs sols sc bk hg hq
      (fun c hcm => List.mem_range.1 hcm)
    simpa [saRow, allRow] using this

theorem solve_all_sim (n : Nat) :
    ∃ k, solve_all_backtrack n =
      ⟨mkBoard n, [], [], [], (allRow n n []).map enumP,
        (allRow n n []).length, k⟩ := by
  obtain ⟨k, h⟩ := saRow_sim n n [] [] 0 0 (by simp) (by simp)
  refine ⟨k, ?_⟩
  rw [solve_all_backtrack]
  have hb : boardOf n [] = mkBoard n := boardOf_nil n
  have hc : colsOf [] = ([] : List Nat) := rfl
  have hd1 : diag1Of [] = ([] : List Int) := rfl
  have hd2 : diag2Of [] = ([] : List Nat) := rfl
  rw [hb, hc, hd1, hd2] at h
  simpa using h

/-! ### Known solution counts (C2) -/

theorem cntTry_length (f : List Nat → List (List Nat)) (cf : List Nat → Nat)
    (hfc : ∀ x, cf x = (f x).length) (qs : List Nat) :
    ∀ cs, cntTry cf qs cs = (allTry f qs cs).length := by
  intro cs
  induction cs with
  | nil => rfl
  | cons c rest ih =>
    simp only [cntTry, allTry, List.length_append]
    by_cases hs : absSafe qs c = true
    · rw [if_pos hs, if_pos hs, hfc, ih]
    · rw [if_neg hs, if_neg hs, ih]
      rfl

theorem cntRow_length (n : Nat) : ∀ g qs, cntRow n g qs = (allRow n g qs).length := by
  intro g
  induction g with
  | zero =>
    intro qs
    rfl
  | succ g ih =>
    intro qs
    simp only [cntRow, allRow]
    exact cntTry_length _ _ ih qs (List.range n)

theorem solve_all_counts_eq (n : Nat) :
    (solve_all_backtrack n).solution_count = cntRow n n [] ∧
    (solve_all_backtrack n).solutions.length = cntRow n n [] := by
  obtain ⟨k, h⟩ := solve_all_sim n
  rw [h, cntRow_length]
  simp

set_option maxRecDepth 40000 in
set_option maxHeartbeats 1600000 in
/-- C2: for N = 4, 5, 6, 7, 8 the exhaustive search on a fresh solver
produces a solutions list of length 2, 10, 4, 40, 92 respectively, and
`solution_count` equals that length. -/
theorem solve_all_backtrack_known_counts :
    ((solve_all_backtrack 4).solutions.length = 2 ∧
      (solve_all_backtrack 4).solution_count = 2) ∧
    ((solve_all_backtrack 5).solutions.length = 10 ∧
      (solve_all_backtrack 5).solution_count = 10) ∧
    ((solve_all_backtrack 6).solutions.length = 4 ∧
      (solve_all_backtrack 6).solution_count = 4) ∧
    ((solve_all_backtrack 7).solutions.length = 40 ∧
      (solve_all_backtrack 7).solution_count = 40) ∧
    ((solve_all_backtrack 8).solutions.length = 92 ∧
      (solve_all_backtrack 8).solution_count = 92) := by
  have e4 : cntRow 4 4 [] = 2 := by rfl
  have e5 : cntRow 5 5 [] = 10 := by rfl
  have e6 : cntRow 6 6 [] = 4 := by rfl
  have e7 : cntRow 7 7 [] = 40 := by rfl
  have e8 : cntRow 8 8 [] = 92 := by rfl
  exact ⟨⟨(solve_all_counts_eq 4).2.trans e4, (solve_all_counts_eq 4).1.trans e4⟩,
    ⟨(solve_all_counts_eq 5).2.trans e5, (solve_all_counts_eq 5).1.trans e5⟩,
    ⟨(solve_all_counts_eq 6).2.trans e6, (solve_all_counts_eq 6).1.trans e6⟩,
    ⟨(solve_all_counts_eq 7).2.trans e7, (solve_all_counts_eq 7).1.trans e7⟩,
    ⟨(solve_all_counts_eq 8).2.trans e8, (solve_all_counts_eq 8).1.trans e8⟩⟩

/-- C10: a top-level exhaustive search (row 0, fresh empty sets, all-zero
board) returns with the board again all-zero and the three sets again
empty, whatever `solutions`/`solution_count`/`backtrack_count` held before;
those three fields are the only ones that change (the new solutions are
appended, the counts only grow). -/
theorem solve_all_backtrack_restores_state (n : Nat)
    (sols0 : List (List (Nat × Nat))) (sc0 bk0 : Nat) :
    (∃ newSols k, saRow n n 0 ⟨mkBoard n, [], [], [], sols0, sc0, bk0⟩ =
      ⟨mkBoard n, [], [], [], sols0 ++ newSols, sc0 + newSols.length,
        bk0 + k⟩) ∧
    ((solve_all_backtrack n).board = mkBoard n ∧
      (solve_all_backtrack n).cols = [] ∧
      (solve_all_backtrack n).diag1 = [] ∧
      (solve_all_backtrack n).diag2 = []) := by
  constructor
  · obtain ⟨k, h⟩ := saRow_sim n n [] sols0 sc0 bk0 (by simp) (by simp)
    refine ⟨(allRow n n []).map enumP, k, ?_⟩
    have hb : boardOf n [] = mkBoard n := boardOf_nil n
    have hc : colsOf [] = ([] : List Nat) := rfl
    have hd1 : diag1Of [] = ([] : List Int) := rfl
    have hd2 : diag2Of [] = ([] : List Nat) := rfl
    rw [hb, hc, hd1, hd2] at h
    simp only [List.length_nil, List.length_map] at h ⊢
    exact h
  · obtain ⟨k, h⟩ := solve_all_sim n
    rw [h]
    exact ⟨rfl, rfl, rfl, rfl⟩

/-! ### Every enumerated solution is valid and the list has no duplicates -/

theorem allTry_mem (f : List Nat → List (List Nat)) (qs : List Nat)
    (r : List Nat) :
    ∀ cs, r ∈ allTry f qs cs →
      ∃ c ∈ cs, absSafe qs c = true ∧ r ∈ f (qs ++ [c]) := by
  intro cs
  induction cs with
  | nil => simp [allTry]
  | cons c rest ih =>
    intro h
    rcases List.mem_append.1 h with h1 | h2
    · by_cases hs : absSafe qs c = true
      · rw [if_pos hs] at h1
        exact ⟨c, by simp, hs, h1⟩
      · rw [if_neg hs] at h1
        exact absurd h1 (by simp)
    · obtain ⟨x, hx, hsx, hfx⟩ := ih h2
      exact ⟨x, by simp [hx], hsx, hfx⟩

theorem allRow_take (n : Nat) : ∀ g qs r, r ∈ allRow n g qs →
    r.take qs.length = qs ∧ r.length = qs.length + g := by
  intro g
  induction g with
  | zero =>
    intro qs r h
    simp only [allRow, List.mem_singleton] at h
    subst h
    exact ⟨List.take_length r, rfl⟩
  | succ g ih =>
    intro qs r h
    simp only [allRow] at h
    obtain ⟨c, hc, hsafe, hf⟩ := allTry_mem _ _ _ _ h
    obtain ⟨htake, hlen⟩ := ih (qs ++ [c]) r hf
    simp only [List.length_append, List.length_cons, List.length_nil,
      Nat.zero_add] at htake hlen
    constructor
    · have h1 : r.take qs.length = (r.take (qs.length + 1)).take qs.length := by
        rw [List.take_take]
        congr 1
        omega
      rw [h1, htake]
      exact List.take_left qs [c]
    · omega

theorem allRow_getD (n g : Nat) (qs : List Nat) (c : Nat) (r : List Nat)
    (h : r ∈ allRow n g (qs ++ [c])) : r.getD qs.length 0 = c := by
  obtain ⟨htake, hlen⟩ := allRow_take n g (qs ++ [c]) r h
  have hl : qs.length < r.length := by
    simp only [List.length_append, List.length_cons, List.length_nil,
      Nat.zero_add] at hlen
    omega
  have h1 : r.getD qs.length 0 = (r.take (qs.length + 1)).getD qs.length 0 :=
    (getD_take r (qs.length + 1) qs.length (by omega)).symm
  rw [h1]
  have h2 : (qs ++ [c]).length = qs.length + 1 := by simp
  rw [← h2, htake]
  exact getD_append_self qs c 0

theorem allRow_sound (n : Nat) : ∀ g qs r, qs.length + g = n → Ok n qs →
    r ∈ allRow n g qs → IsSolution n r := by
  intro g
  induction g with
  | zero =>
    intro qs r hg hOk h
    simp only [allRow, List.mem_singleton] at h
    subst h
    exact ⟨by omega, hOk⟩
  | succ g ih =>
    intro qs r hg hOk h
    simp only [allRow] at h
    obtain ⟨c, hc, hsafe, hf⟩ := allTry_mem _ _ _ _ h
    have hcn : c < n := List.mem_range.1 hc
    exact ih (qs ++ [c]) r (by simp; omega) (Ok_append n qs c hOk hcn hsafe) hf

theorem allTry_nodup (n g : Nat) (qs : List Nat)
    (IH : ∀ qs', (allRow n g qs').Nodup) :
    ∀ cs, cs.Nodup → (allTry (allRow n g) qs cs).Nodup := by
  intro cs
  induction cs with
  | nil =>
    intro h
    simp [allTry]
  | cons c rest ih =>
    intro h
    have hnd := List.nodup_cons.1 h
    apply List.Nodup.append
    · by_cases hs : absSafe qs c = true
      · rw [if_pos hs]
        exact IH (qs ++ [c])
      · rw [if_neg hs]
        exact List.nodup_nil
    · exact ih hnd.2
    · intro x hx1 hx2
      by_cases hs : absSafe qs c = true
      · rw [if_pos hs] at hx1
        obtain ⟨c', hc', hsafe', hf'⟩ := allTry_mem _ _ _ _ hx2
        have e1 : x.getD qs.length 0 = c := allRow_getD n g qs c x hx1
        have e2 : x.getD qs.length 0 = c' := allRow_getD n g qs c' x hf'
        exact hnd.1 (by rw [← e1.symm.trans e2] at hc'; exact hc')
      · rw [if_neg hs] at hx1
        exact absurd hx1 (by simp)

theorem allRow_nodup (n : Nat) : ∀ g qs, (allRow n g qs).Nodup := by
  intro g
  induction g with
  | zero =>
    intro qs
    simp [allRow]
  | succ g ih =>
    intro qs
    simp only [allRow]
    exact allTry_nodup n g qs ih (List.range n) (List.nodup_range n)

theorem map_snd_enumP (qs : List Nat) : (enumP qs).map Prod.snd = qs := by
  apply List.ext_getElem (by simp [enumP])
  intro i h1 h2
  simp only [enumP, List.getElem_map, List.getElem_range]
  simp only [enumP, List.length_map, List.length_range] at h1
  exact (getD_of_lt qs i 0 h1).symm ▸ rfl

theorem enumP_injective : Function.Injective enumP := by
  intro a b h
  rw [← map_snd_enumP a, ← map_snd_enumP b, h]

/-! ### `validate_solution` characterization -/

theorem mem_setAdd {α : Type} [DecidableEq α] (a x : α) (l : List α) :
    x ∈ setAdd a l ↔ x = a ∨ x ∈ l := by
  unfold setAdd
  split_ifs with hm
  · constructor
    · exact fun h => Or.inr h
    · rintro (rfl | h)
      · exact hm
      · exact h
  · exact List.mem_cons

theorem validateLoop_iff (ps : List (Int × Int)) : ∀ R C D1 D2,
    validateLoop ps R C D1 D2 = true ↔
      (List.Pairwise (fun p q : Int × Int => p.1 ≠ q.1 ∧ p.2 ≠ q.2 ∧
          p.1 - p.2 ≠ q.1 - q.2 ∧ p.1 + p.2 ≠ q.1 + q.2) ps ∧
        ∀ p ∈ ps, p.1 ∉ R ∧ p.2 ∉ C ∧ p.1 - p.2 ∉ D1 ∧ p.1 + p.2 ∉ D2) := by
  induction ps with
  | nil =>
    intro R C D1 D2
    simp [validateLoop]
  | cons p rest ih =>
    intro R C D1 D2
    obtain ⟨r, c⟩ := p
    by_cases hcol : r ∈ R ∨ c ∈ C ∨ (r - c) ∈ D1 ∨ (r + c) ∈ D2
    · simp only [validateLoop, if_pos hcol]
      constructor
      · intro h
        exact absurd h (by simp)
      · rintro ⟨-, hmem⟩
        obtain ⟨h1, h2, h3, h4⟩ := hmem (r, c) (by simp)
        rcases hcol with h | h | h | h
        · exact absurd h h1
        · exact absurd h h2
        · exact absurd h h3
        · exact absurd h h4
    · simp only [validateLoop, if_neg hcol]
      rw [ih]
      push_neg at hcol
      constructor
      · rintro ⟨hpw, hmem⟩
        refine ⟨List.pairwise_cons.2 ⟨?_, hpw⟩, ?_⟩
        · intro q hq
          obtain ⟨h1, h2, h3, h4⟩ := hmem q hq
          rw [mem_setAdd] at h1 h2 h3 h4
          push_neg at h1 h2 h3 h4
          exact ⟨Ne.symm h1.1, Ne.symm h2.1, Ne.symm h3.1, Ne.symm h4.1⟩
        · intro q hq
          rcases List.mem_cons.1 hq with rfl | hq'
          · exact ⟨hcol.1, hcol.2.1, hcol.2.2.1, hcol.2.2.2⟩
          · obtain ⟨h1, h2, h3, h4⟩ := hmem q hq'
            rw [mem_setAdd] at h1 h2 h3 h4
            push_neg at h1 h2 h3 h4
            exact ⟨h1.2, h2.2, h3.2, h4.2⟩
      · rintro ⟨hpw, hmem⟩
        obtain ⟨hhead, htail⟩ := List.pairwise_cons.1 hpw
        refine ⟨htail, ?_⟩
        intro q hq
        obtain ⟨h1, h2, h3, h4⟩ := hmem q (by simp [hq])
        obtain ⟨g1, g2, g3, g4⟩ := hhead q hq
        rw [mem_setAdd, mem_setAdd, mem_setAdd, mem_setAdd]
        push_neg
        exact ⟨⟨Ne.symm g1, h1⟩, ⟨Ne.symm g2, h2⟩, ⟨Ne.symm g3, h3⟩,
          ⟨Ne.symm g4, h4⟩⟩

theorem validate_solution_iff (n : Nat) (sol : List (Int × Int)) :
    validate_solution n sol = true ↔
      sol.length = n ∧
        List.Pairwise (fun p q : Int × Int => p.1 ≠ q.1 ∧ p.2 ≠ q.2 ∧
          p.1 - p.2 ≠ q.1 - q.2 ∧ p.1 + p.2 ≠ q.1 + q.2) sol := by
  unfold validate_solution
  split_ifs with hl
  · rw [validateLoop_iff]
    simp [hl]
  · simp [hl]

theorem validate_enumP (n : Nat) (qs : List Nat) (hlen : qs.length = n)
    (hOk : Ok n qs) : validate_solution n (toZ (enumP qs)) = true := by
  rw [validate_solution_iff]
  constructor
  · simp [toZ, enumP, hlen]
  · rw [List.pairwise_iff_getElem]
    intro i j hi hj hij
    simp only [toZ, enumP, List.length_map, List.length_range] at hi hj
    simp only [toZ, enumP, List.getElem_map, List.getElem_range]
    have hat := hOk.2 j (by omega) i hij
    rw [attacksB_eq_false] at hat
    obtain ⟨h1, h2, h3⟩ := hat
    refine ⟨?_, ?_, ?_, ?_⟩ <;> omega

/-- C4: for every positive N, every entry of the solutions list produced by
exhaustive search passes `validate_solution`, and no two entries are equal
as sequences of (row, column) pairs. -/
theorem solve_all_backtrack_valid_and_distinct (n : Nat) (hn : 0 < n) :
    (∀ s ∈ (solve_all_backtrack n).solutions,
      validate_solution n (toZ s) = true) ∧
    (solve_all_backtrack n).solutions.Nodup := by
  obtain ⟨k, h⟩ := solve_all_sim n
  rw [h]
  constructor
  · intro s hs
    simp only [List.mem_map] at hs
    obtain ⟨qs, hqs, rfl⟩ := hs
    obtain ⟨hlen, hOk⟩ := allRow_sound n n [] qs (by simp) (Ok_nil n) hqs
    exact validate_enumP n qs hlen hOk
  · exact (allRow_nodup n n []).map enumP_injective

/-- C4 witness at N = 4. -/
theorem solve_all_backtrack_valid_and_distinct_witness :
    (∀ s ∈ (solve_all_backtrack 4).solutions,
      validate_solution 4 (toZ s) = true) ∧
    (solve_all_backtrack 4).solutions.Nodup :=
  solve_all_backtrack_valid_and_distinct 4 (by decide)

/-- C5 counterexample: `validate_solution` does **not** reject a candidate
with an out-of-range coordinate — the column 5 is outside `0..1` for a
2×2 board, yet the candidate is accepted. -/
theorem validate_solution_accepts_out_of_range :
    validate_solution 2 [((0 : Int), (0 : Int)), ((1 : Int), (5 : Int))] = true ∧
    ¬ ((5 : Int) < 2) := by
  constructor
  · rfl
  · decide

/-- C5 (amended): `validate_solution` is total and returns `false` for a
candidate of the wrong length and for any candidate with a duplicated row,
column, `row − col` or `row + col` value; it does not check coordinate
ranges. -/
theorem validate_solution_rejects_malformed (n : Nat)
    (sol : List (Int × Int)) :
    (sol.length ≠ n → validate_solution n sol = false) ∧
    (∀ i j : Nat, i < j → j < sol.length →
      ((sol.getD i (0, 0)).1 = (sol.getD j (0, 0)).1 ∨
        (sol.getD i (0, 0)).2 = (sol.getD j (0, 0)).2 ∨
        (sol.getD i (0, 0)).1 - (sol.getD i (0, 0)).2 =
          (sol.getD j (0, 0)).1 - (sol.getD j (0, 0)).2 ∨
        (sol.getD i (0, 0)).1 + (sol.getD i (0, 0)).2 =
          (sol.getD j (0, 0)).1 + (sol.getD j (0, 0)).2) →
      validate_solution n sol = false) := by
  constructor
  · intro h
    unfold validate_solution
    rw [if_neg h]
  · intro i j hij hj hdup
    cases hv : validate_solution n sol with
    | false => rfl
    | true =>
      obtain ⟨-, hpw⟩ := (validate_solution_iff n sol).1 hv
      rw [List.pairwise_iff_getElem] at hpw
      obtain ⟨h1, h2, h3, h4⟩ := hpw i j (by omega) hj hij
      rw [getD_of_lt _ _ _ (by omega), getD_of_lt _ _ _ hj] at hdup
      rcases hdup with h | h | h | h
      · exact absurd h h1
      · exact absurd h h2
      · exact absurd h h3
      · exact absurd h h4

/-- C5 witness: the spec's own column-sharing example for N = 4 is
rejected. -/
theorem validate_solution_rejects_malformed_witness :
    validate_solution 4
      [((0 : Int), (0 : Int)), (1, 0), (2, 2), (3, 3)] = false ∧
    ((([((0 : Int), (0 : Int)), (1, 0), (2, 2), (3, 3)]).getD 0 (0, 0)).2 =
      (([((0 : Int), (0 : Int)), (1, 0), (2, 2), (3, 3)]).getD 1 (0, 0)).2) :=
  ⟨(validate_solution_rejects_malformed 4 _).2 0 1 (by decide) (by decide)
    (by decide), by decide⟩

/-! ### The symmetry-analysis counting step is a no-op (C9) -/

theorem pySorted_of_pairwise :
    ∀ l, List.Pairwise (fun a b => pairLe a b = true) l → pySorted l = l := by
  intro l
  induction l with
  | nil => intro h; rfl
  | cons x xs ih =>
    intro h
    obtain ⟨hx, hxs⟩ := List.pairwise_cons.1 h
    simp only [pySorted]
    rw [ih hxs]
    cases xs with
    | nil => rfl
    | cons y ys => simp only [pyInsert, if_pos (hx y (by simp))]

theorem enumP_pairwise (qs : List Nat) :
    List.Pairwise (fun a b => pairLe a b = true) (enumP qs) := by
  rw [List.pairwise_iff_getElem]
  intro i j hi hj hij
  simp only [enumP, List.length_map, List.length_range] at hi hj
  simp only [enumP, List.getElem_map, List.getElem_range]
  simp only [pairLe]
  rw [if_neg (by omega)]
  simp
  omega

/-- C9: the "unique solutions (ignoring symmetry)" count computed by
`analyze_symmetry` — the size of the set of sorted solution tuples — always
equals the total number of solutions produced by exhaustive search: the
step deduplicates nothing and performs no rotational/reflective
canonicalization. -/
theorem analyze_symmetry_unique_eq_total (n : Nat) (hn : 0 < n) :
    unique_solution_count (solve_all_backtrack n).solutions =
      (solve_all_backtrack n).solutions.length := by
  obtain ⟨k, h⟩ := solve_all_sim n
  rw [h]
  unfold unique_solution_count
  have hid : ((allRow n n []).map enumP).map pySorted =
      (allRow n n []).map enumP := by
    rw [List.map_map]
    apply List.map_congr_left
    intro qs hqs
    exact pySorted_of_pairwise _ (enumP_pairwise qs)
  have hnd : ((allRow n n []).map enumP).Nodup :=
    (allRow_nodup n n []).map enumP_injective
  simp only [hid, List.Nodup.dedup hnd]

/-- C9 witness at N = 4 (the count there is 2). -/
theorem analyze_symmetry_unique_eq_total_witness :
    unique_solution_count (solve_all_backtrack 4).solutions =
      (solve_all_backtrack 4).solutions.length :=
  analyze_symmetry_unique_eq_total 4 (by decide)

/-! ### The live sets mirror the board throughout exhaustive search (C7) -/

theorem safety_agreement (n : Nat) (qs : List Nat) (col : Nat)
    (hq : ∀ q ∈ qs, q < n) (hlen : qs.length ≤ n) (hcol : col < n) :
    is_safe_optimized qs.length col (colsOf qs) (diag1Of qs) (diag2Of qs) =
      is_safe n (boardOf n qs) qs.length col := by
  rw [is_safe_optimized_eq, is_safe_boardOf n qs col hq hlen hcol]

/-- C7: at every state the exhaustive search can reach, the three sets hold
exactly the columns, `row − col` and `row + col` values of the queens on
the board (witnessed by the placement list `qs`), without duplicates, and
consequently every safety query agrees with the board-scanning check:
`is_safe_optimized row col cols diag1 diag2 = is_safe row col`. -/
theorem sa_reach_sets_mirror (n row : Nat) (b : Board) (cs : List Nat)
    (d1 : List Int) (d2 : List Nat) (h : SAReach n row b cs d1 d2) :
    ∃ qs : List Nat, qs.length = row ∧ (∀ q ∈ qs, q < n) ∧
      b = boardOf n qs ∧ cs = colsOf qs ∧ d1 = diag1Of qs ∧ d2 = diag2Of qs ∧
      cs.Nodup ∧ d1.Nodup ∧ d2.Nodup ∧
      ∀ col, col < n →
        is_safe_optimized row col cs d1 d2 = is_safe n b row col := by
  induction h with
  | init =>
    refine ⟨[], rfl, by simp, (boardOf_nil n).symm, rfl, rfl, rfl,
      List.nodup_nil, List.nodup_nil, List.nodup_nil, ?_⟩
    intro col hcol
    have hag := safety_agreement n [] col (by simp) (Nat.zero_le n) hcol
    simp only [List.length_nil, boardOf_nil] at hag
    exact hag
  | step hre hrow hcn hsafe ih =>
    rename_i row' b' cs' d1' d2' c
    obtain ⟨qs, hlen, hq, rfl, rfl, rfl, rfl, hnc, hnd1, hnd2, hagree⟩ := ih
    subst hlen
    have habs : absSafe qs c = true := by
      rw [← is_safe_optimized_eq]
      exact hsafe
    obtain ⟨hn1, hn2, hn3⟩ := not_mem_of_absSafe qs _ habs
    have hq' : ∀ q ∈ qs ++ [c], q < n := by
      intro q hqm
      rcases List.mem_append.1 hqm with hm | hm
      · exact hq q hm
      · simp at hm
        omega
    refine ⟨qs ++ [c], by simp, hq',
      setCell_boardOf_add n qs c hrow hcn,
      by rw [setAdd_of_not_mem _ _ hn1, colsOf_append],
      by rw [setAdd_of_not_mem _ _ hn2, diag1Of_append],
      by rw [setAdd_of_not_mem _ _ hn3, diag2Of_append],
      by rw [setAdd_of_not_mem _ _ hn1]; exact List.nodup_cons.2 ⟨hn1, hnc⟩,
      by rw [setAdd_of_not_mem _ _ hn2]; exact List.nodup_cons.2 ⟨hn2, hnd1⟩,
      by rw [setAdd_of_not_mem _ _ hn3]; exact List.nodup_cons.2 ⟨hn3, hnd2⟩,
      ?_⟩
    intro col hcol
    rw [setAdd_of_not_mem _ _ hn1, setAdd_of_not_mem _ _ hn2,
      setAdd_of_not_mem _ _ hn3, ← colsOf_append, ← diag1Of_append,
      ← diag2Of_append, setCell_boardOf_add n qs c hrow hcn]
    have hag := safety_agreement n (qs ++ [c]) col hq' (by simp; omega) hcol
    have hl2 : (qs ++ [c]).length = qs.length + 1 := by simp
    rw [hl2] at hag
    exact hag

/-- C7 witness: the fresh initial state of a size-4 search. -/
theorem sa_reach_sets_mirror_witness :
    ∃ qs : List Nat, qs.length = 0 ∧ (∀ q ∈ qs, q < 4) ∧
      mkBoard 4 = boardOf 4 qs ∧ ([] : List Nat) = colsOf qs ∧
      ([] : List Int) = diag1Of qs ∧ ([] : List Nat) = diag2Of qs ∧
      ([] : List Nat).Nodup ∧ ([] : List Int).Nodup ∧
      ([] : List Nat).Nodup ∧
      ∀ col, col < 4 →
        is_safe_optimized 0 col [] [] [] = is_safe 4 (mkBoard 4) 0 col :=
  sa_reach_sets_mirror 4 0 (mkBoard 4) [] [] [] SAReach.init

/-! ### Construction is unvalidated (C6) and first-solution statistics (C8) -/

/-- C6 counterexample: constructing a solver with the non-positive size −1
succeeds and returns an ordinary solver value (with an empty board); no
`InvalidSize` failure exists anywhere in the constructor. -/
theorem init_negative_size_succeeds :
    Solver.init (-1) =
      { n := -1, board := [], solutions := [], solution_count := 0,
        backtrack_count := 0 } := by
  rfl

/-- C6 (amended): `__init__` performs no input validation at all — for
every integer `n` it returns a solver with that `n`, a board of
`max n 0` rows, and zeroed statistics; for `n ≤ 0` the board is empty.
(The only size screening in the source is the CLI prompt
`get_board_size`, outside the engine.) -/
theorem init_total_no_validation (n : Int) :
    (Solver.init n).n = n ∧ (Solver.init n).board.length = n.toNat ∧
    (Solver.init n).solutions = [] ∧ (Solver.init n).solution_count = 0 ∧
    (Solver.init n).backtrack_count = 0 ∧
    (n ≤ 0 → (Solver.init n).board = []) := by
  refine ⟨rfl, by simp [Solver.init, mkBoard], rfl, rfl, rfl, ?_⟩
  intro h
  simp only [Solver.init, mkBoard]
  rw [Int.toNat_of_nonpos h]
  rfl

/-- C6 witness at n = −1. -/
theorem init_total_no_validation_witness :
    (Solver.init (-1)).n = -1 ∧
    (Solver.init (-1)).board.length = (-1 : Int).toNat ∧
    (Solver.init (-1)).solutions = [] ∧
    (Solver.init (-1)).solution_count = 0 ∧
    (Solver.init (-1)).backtrack_count = 0 ∧
    (Solver.init (-1)).board = [] := by
  obtain ⟨h1, h2, h3, h4, h5, h6⟩ := init_total_no_validation (-1)
  exact ⟨h1, h2, h3, h4, h5, h6 (by decide)⟩

/-- C8 counterexample: after `create(1)` and a completed first-solution
search, the reported `solutions_found` statistic is 0, not 1 —
`solve_backtrack` never increments `solution_count`. -/
theorem solveFirst_one_statistics_not_one :
    (get_statistics (Solver.solveFirst (Solver.init 1)).2).solutions_found
      = 0 := by
  rfl

/-- C8 (amended): `create(1); solveFirst()` succeeds and the found solution
is the single cell `(0, 0)` (board `[[1]]`), but the statistics for the
handle report `solutionsFound = 0`, because only `solve_all_backtrack`
updates `solution_count`. -/
theorem solveFirst_one_solution_and_statistics :
    (Solver.solveFirst (Solver.init 1)).1 = true ∧
    (Solver.solveFirst (Solver.init 1)).2.board = [[1]] ∧
    buildSolution 1 (Solver.solveFirst (Solver.init 1)).2.board = [(0, 0)] ∧
    (get_statistics (Solver.solveFirst (Solver.init 1)).2).solutions_found
      = 0 ∧
    (get_statistics (Solver.solveFirst (Solver.init 1)).2).board_size = 1 := by
  exact ⟨rfl, rfl, rfl, rfl, rfl⟩

/-! ### The iterative search refines the recursive one (C3)

The machine state at the moment a frame `(row, col)` is processed is
abstracted by the placement `qs` (columns of rows `0..row-1`): the frame
says "resume scanning row `qs.length` at column `col`", the rest of the
stack is `tailFrames qs`, and `resume n qs col` is the first solution the
machine will eventually deliver from here. -/

theorem enumP_length (qs : List Nat) : (enumP qs).length = qs.length := by
  simp [enumP]

theorem enumP_append (qs : List Nat) (c : Nat) :
    enumP (qs ++ [c]) = enumP qs ++ [(qs.length, c)] := by
  unfold enumP
  rw [show (qs ++ [c]).length = qs.length + 1 by simp,
    map_range_append_getD qs c fun i q => (i, q)]

theorem tailFrames_nil : tailFrames [] = [] := rfl

theorem tailFrames_append (qs : List Nat) (c : Nat) :
    tailFrames (qs ++ [c]) = (qs.length, c + 1) :: tailFrames qs := by
  unfold tailFrames
  rw [show (qs ++ [c]).length = qs.length + 1 by simp,
    map_range_append_getD qs c fun i q => (i, q + 1), List.reverse_append]
  rfl

theorem popTo_nop (row : Nat) (pos : List (Nat × Nat)) (b : Board)
    (h : pos.length ≤ row) : popTo row pos b = (pos, b) := by
  cases pos with
  | nil => rfl
  | cons p rest =>
    obtain ⟨r, c⟩ := p
    simp only [List.length_cons] at h
    simp only [popTo]
    split
    next hcond => exact absurd hcond (by omega)
    next hcond => rfl

theorem find?_congr_mem {α : Type} (l : List α) (p q : α → Bool)
    (h : ∀ x ∈ l, p x = q x) : l.find? p = l.find? q := by
  induction l with
  | nil => rfl
  | cons a t ih =>
    rw [List.find?_cons, List.find?_cons, h a (by simp),
      ih fun x hx => h x (by simp [hx])]

theorem resume_nil (n col : Nat) : resume n [] col = resumeF n [] col := rfl

theorem resume_concat (n : Nat) (ys : List Nat) (q col : Nat) :
    resume n (ys ++ [q]) col =
      (match resumeF n (ys ++ [q]) col with
        | some r => some r
        | none => resume n ys (q + 1)) := by
  unfold resume
  rw [List.reverse_append]
  show resumeR n (q :: ys.reverse) col = _
  simp only [resumeR, List.reverse_cons, List.reverse_reverse]

theorem resume_of_resumeF_some (n : Nat) (qs : List Nat) (col : Nat)
    (r : List Nat) (h : resumeF n qs col = some r) :
    resume n qs col = some r := by
  rcases List.eq_nil_or_concat qs with rfl | ⟨ys, q, rfl⟩
  · rw [resume_nil, h]
  · simp only [List.concat_eq_append] at h ⊢
    rw [resume_concat, h]

theorem resumeF_zero (n : Nat) (qs : List Nat) (h : qs.length < n) :
    resumeF n qs 0 = absRow n (n - qs.length) qs := by
  unfold resumeF
  rw [Nat.sub_zero, ← List.range_eq_range']
  have hg : n - qs.length = (n - qs.length - 1) + 1 := by omega
  rw [hg]
  rfl

theorem resumeF_char (n : Nat) (qs : List Nat) :
    ∀ d col, n - col = d →
      (match (List.range' col (n - col)).find? (fun c => absSafe qs c) with
        | some c => resumeF n qs col =
            (match absRow n (n - qs.length - 1) (qs ++ [c]) with
              | some r => some r
              | none => resumeF n qs (c + 1))
        | none => resumeF n qs col = none) := by
  intro d
  induction d with
  | zero =>
    intro col hd
    rw [hd]
    simp only [List.range'_zero, List.find?_nil]
    unfold resumeF
    rw [hd]
    rfl
  | succ d ih =>
    intro col hd
    have hcol : col < n := by omega
    have hrange : List.range' col (n - col) =
        col :: List.range' (col + 1) (n - (col + 1)) := by
      rw [hd, show n - (col + 1) = d by omega, List.range'_succ]
    by_cases hs : absSafe qs col = true
    · rw [hrange, List.find?_cons, hs]
      show resumeF n qs col =
        (match absRow n (n - qs.length - 1) (qs ++ [col]) with
          | some r => some r
          | none => resumeF n qs (col + 1))
      unfold resumeF
      rw [hrange]
      simp only [absTry, hs, if_true]
    · have hs' : absSafe qs col = false := by
        cases hb : absSafe qs col
        · rfl
        · exact absurd hb hs
      have hF : resumeF n qs col = resumeF n qs (col + 1) := by
        unfold resumeF
        rw [hrange]
        simp only [absTry, hs', Bool.false_eq_true, if_false]
      have hfind : (List.range' col (n - col)).find? (fun c => absSafe qs c) =
          (List.range' (col + 1) (n - (col + 1))).find? (fun c => absSafe qs c) := by
        rw [hrange, List.find?_cons, hs']
      rw [hfind, hF]
      exact ih (col + 1) (by omega)

theorem sum_range_append_measure (n : Nat) (qs : List Nat) (c : Nat) :
    ((List.range (qs ++ [c]).length).map fun i =>
        (n - (qs ++ [c]).getD i 0 - 1) * (n + 1) ^ (n - i)).sum =
      ((List.range qs.length).map fun i =>
        (n - qs.getD i 0 - 1) * (n + 1) ^ (n - i)).sum +
        (n - c - 1) * (n + 1) ^ (n - qs.length) := by
  rw [show (qs ++ [c]).length = qs.length + 1 by simp,
    map_range_append_getD qs c fun i q => (n - q - 1) * (n + 1) ^ (n - i),
    List.sum_append]
  simp

theorem measure_key_ineq (m x a b : Nat) (hb : b + 1 ≤ a) (hx : 1 ≤ x) :
    b * ((m + 1) * x) + m * x < a * ((m + 1) * x) := by
  obtain ⟨t, rfl⟩ := Nat.exists_eq_add_of_le hb
  have h1 : (b + 1 + t) * ((m + 1) * x) =
      b * ((m + 1) * x) + (1 + t) * ((m + 1) * x) := by ring
  rw [h1]
  apply Nat.add_lt_add_left
  have h2 : m * x < (m + 1) * x := by
    apply Nat.mul_lt_mul_of_lt_of_le (by omega) (Nat.le_refl x)
    omega
  calc m * x < (m + 1) * x := h2
    _ ≤ (1 + t) * ((m + 1) * x) :=
        Nat.le_mul_of_pos_left ((m + 1) * x) (by omega)

theorem iterMeasure_desc (n : Nat) (qs : List Nat) (col c : Nat)
    (hc1 : col ≤ c) (hc2 : c < n) (hlen : qs.length < n) :
    iterMeasure n (qs ++ [c]) 0 < iterMeasure n qs col := by
  unfold iterMeasure
  rw [sum_range_append_measure n qs c,
    show (qs ++ [c]).length = qs.length + 1 by simp]
  set S := ((List.range qs.length).map fun i =>
    (n - qs.getD i 0 - 1) * (n + 1) ^ (n - i)).sum with hS
  have hexp : (n + 1) ^ (n - qs.length) =
      (n + 1) * (n + 1) ^ (n - qs.length - 1) := by
    rw [← pow_succ']
    congr 1
    omega
  have hcore : (n - c - 1) * (n + 1) ^ (n - qs.length) +
      (n - 0) * (n + 1) ^ (n - (qs.length + 1)) <
      (n - col) * (n + 1) ^ (n - qs.length) := by
    rw [hexp, Nat.sub_zero, show n - (qs.length + 1) = n - qs.length - 1 by omega]
    calc (n - c - 1) * ((n + 1) * (n + 1) ^ (n - qs.length - 1)) +
          n * (n + 1) ^ (n - qs.length - 1)
        ≤ (n - col - 1) * ((n + 1) * (n + 1) ^ (n - qs.length - 1)) +
          n * (n + 1) ^ (n - qs.length - 1) := by
          apply Nat.add_le_add_right
          apply Nat.mul_le_mul_right
          omega
      _ < (n - col) * ((n + 1) * (n + 1) ^ (n - qs.length - 1)) := by
          apply measure_key_ineq n ((n + 1) ^ (n - qs.length - 1)) (n - col)
            (n - col - 1) (by omega)
          exact Nat.one_le_pow _ _ (by omega)
  have hLR : S + (n - c - 1) * (n + 1) ^ (n - qs.length) +
      (n - 0) * (n + 1) ^ (n - (qs.length + 1)) + 1 ≤
      S + (n - col) * (n + 1) ^ (n - qs.length) := by omega
  have hmul := Nat.mul_le_mul_left (n + 1) hLR
  rw [Nat.mul_succ] at hmul
  omega

theorem iterMeasure_pop (n : Nat) (ys : List Nat) (q col : Nat) :
    iterMeasure n ys (q + 1) < iterMeasure n (ys ++ [q]) col := by
  unfold iterMeasure
  rw [sum_range_append_measure n ys q,
    show (ys ++ [q]).length = ys.length + 1 by simp]
  have h1 : n - (q + 1) = n - q - 1 := by omega
  rw [h1]
  have hmono : ((List.range ys.length).map fun i =>
      (n - ys.getD i 0 - 1) * (n + 1) ^ (n - i)).sum +
      (n - q - 1) * (n + 1) ^ (n - ys.length) ≤
      ((List.range ys.length).map fun i =>
        (n - ys.getD i 0 - 1) * (n + 1) ^ (n - i)).sum +
      (n - q - 1) * (n + 1) ^ (n - ys.length) +
      (n - col) * (n + 1) ^ (n - (ys.length + 1)) := by omega
  have := Nat.mul_le_mul_left (n + 1) hmono
  omega

theorem resume_success (n : Nat) (qs : List Nat) (col c : Nat)
    (hfind : (List.range' col (n - col)).find? (fun x => absSafe qs x) = some c)
    (hlast : qs.length = n - 1) (hn : 0 < n) :
    resume n qs col = some (qs ++ [c]) := by
  have hchar := resumeF_char n qs (n - col) col rfl
  rw [hfind] at hchar
  have h0 : n - qs.length - 1 = 0 := by omega
  rw [h0] at hchar
  simp only [absRow] at hchar
  exact resume_of_resumeF_some n qs col _ hchar

theorem resume_fail (n : Nat) (qs : List Nat) (col : Nat)
    (hfind : (List.range' col (n - col)).find? (fun x => absSafe qs x) = none) :
    resumeF n qs col = none := by
  have hchar := resumeF_char n qs (n - col) col rfl
  rw [hfind] at hchar
  exact hchar

theorem resume_desc (n : Nat) (qs : List Nat) (col c : Nat)
    (hfind : (List.range' col (n - col)).find? (fun x => absSafe qs x) = some c)
    (hlt : qs.length + 1 < n) :
    resume n (qs ++ [c]) 0 = resume n qs col := by
  have hchar := resumeF_char n qs (n - col) col rfl
  rw [hfind] at hchar
  have hF0 : resumeF n (qs ++ [c]) 0 = absRow n (n - qs.length - 1) (qs ++ [c]) := by
    rw [resumeF_zero n (qs ++ [c]) (by simp; omega)]
    have hl : n - (qs ++ [c]).length = n - qs.length - 1 := by
      simp
      omega
    rw [hl]
  have hchar2 : resumeF n qs col =
      (match absRow n (n - qs.length - 1) (qs ++ [c]) with
        | some r => some r
        | none => resumeF n qs (c + 1)) := hchar
  rw [resume_concat, hF0]
  cases habs : absRow n (n - qs.length - 1) (qs ++ [c]) with
  | some r =>
    rw [habs] at hchar2
    show some r = resume n qs col
    rw [resume_of_resumeF_some n qs col r hchar2]
  | none =>
    rw [habs] at hchar2
    have hchar3 : resumeF n qs col = resumeF n qs (c + 1) := hchar2
    show resume n qs (c + 1) = resume n qs col
    rcases List.eq_nil_or_concat qs with rfl | ⟨ys, q, rfl⟩
    · rw [resume_nil, resume_nil, hchar3]
    · simp only [List.concat_eq_append] at hchar3 ⊢
      rw [resume_concat n ys q (c + 1), resume_concat n ys q col, hchar3]

theorem iterGo_spec (n : Nat) : ∀ fuel qs col pos b bk,
    (∀ q ∈ qs, q < n) → qs.length < n → col ≤ n →
    popTo qs.length pos b = ((enumP qs).reverse, boardOf n qs) →
    iterMeasure n qs col + 1 < fuel →
    ∃ bk', iterGo n fuel ((qs.length, col) :: tailFrames qs) pos b bk =
      some (match resume n qs col with
        | some res => (true, boardOf n res, bk')
        | none => (false, mkBoard n, bk')) := by
  intro fuel
  induction fuel with
  | zero =>
    intro qs col pos b bk _ _ _ _ hm
    omega
  | succ f ih =>
    intro qs col pos b bk hq hlen hcol hpop hm
    simp only [iterGo, hpop]
    have hfc : (List.range' col (n - col)).find?
        (fun c => is_safe n (boardOf n qs) qs.length c) =
        (List.range' col (n - col)).find? (fun c => absSafe qs c) := by
      apply find?_congr_mem
      intro x hx
      have hx2 := List.mem_range'_1.1 hx
      exact is_safe_boardOf n qs x hq (by omega) (by omega)
    rw [hfc]
    cases hfind : (List.range' col (n - col)).find? (fun c => absSafe qs c) with
    | some c =>
      dsimp only
      have hmem := List.mem_of_find?_eq_some hfind
      have hcr := List.mem_range'_1.1 hmem
      have hcn : c < n := by omega
      by_cases hlast : qs.length = n - 1
      · refine ⟨bk, ?_⟩
        rw [if_pos hlast, resume_success n qs col c hfind hlast (by omega)]
        rw [setCell_boardOf_add n qs c (by omega) hcn]
      · have hlt : qs.length + 1 < n := by omega
        rw [if_neg hlast]
        rw [setCell_boardOf_add n qs c (by omega) hcn]
        have hstack : ((qs.length + 1, 0) : Nat × Nat) ::
            (qs.length, c + 1) :: tailFrames qs =
            ((qs ++ [c]).length, 0) :: tailFrames (qs ++ [c]) := by
          rw [tailFrames_append]
          simp
        have hposs : ((qs.length, c) : Nat × Nat) :: (enumP qs).reverse =
            (enumP (qs ++ [c])).reverse := by
          rw [enumP_append, List.reverse_append]
          rfl
        rw [hstack, hposs]
        obtain ⟨bk', hrun⟩ := ih (qs ++ [c]) 0 ((enumP (qs ++ [c])).reverse)
          (boardOf n (qs ++ [c])) bk
          (by intro q hqm
              rcases List.mem_append.1 hqm with hm1 | hm1
              · exact hq q hm1
              · simp at hm1
                omega)
          (by simp; omega) (by omega)
          (popTo_nop _ _ _ (by rw [List.length_reverse, enumP_length]))
          (by have := iterMeasure_desc n qs col c (by omega) hcn hlen
              omega)
        refine ⟨bk', ?_⟩
        rw [hrun, resume_desc n qs col c hfind hlt]
    | none =>
      dsimp only
      have hFnone := resume_fail n qs col hfind
      rcases List.eq_nil_or_concat qs with rfl | ⟨ys, q, rfl⟩
      · rw [tailFrames_nil]
        have hres : resume n [] col = none := by
          rw [resume_nil, hFnone]
        rw [hres]
        cases f with
        | zero =>
          exfalso
          omega
        | succ f2 =>
          refine ⟨bk + 1, ?_⟩
          simp only [iterGo]
          rw [boardOf_nil]
      · simp only [List.concat_eq_append] at hq hlen hpop hm hfind hFnone ⊢
        have hq2 : q < n := hq q (by simp)
        have hys : ∀ x ∈ ys, x < n := fun x hx => hq x (by simp [hx])
        have hyslen : ys.length < n := by
          simp at hlen
          omega
        rw [tailFrames_append]
        have hrespop : resume n (ys ++ [q]) col = resume n ys (q + 1) := by
          rw [resume_concat, hFnone]
        have hpop2 : popTo ys.length ((enumP (ys ++ [q])).reverse)
            (boardOf n (ys ++ [q])) = ((enumP ys).reverse, boardOf n ys) := by
          rw [enumP_append, List.reverse_append]
          show popTo ys.length ((ys.length, q) :: (enumP ys).reverse) _ = _
          simp only [popTo]
          rw [if_pos (by rw [List.length_reverse, enumP_length]; omega)]
          rw [setCell_boardOf_del n ys q hyslen hq2]
          exact popTo_nop _ _ _ (by rw [List.length_reverse, enumP_length])
        obtain ⟨bk', hrun⟩ := ih ys (q + 1) ((enumP (ys ++ [q])).reverse)
          (boardOf n (ys ++ [q])) (bk + 1) hys hyslen (by omega) hpop2
          (by have := iterMeasure_pop n ys q col
              omega)
        refine ⟨bk', ?_⟩
        rw [hrun, hrespop]

/-- C3: for every positive N (and any fuel at least `iterFuel n`, a bound on
the number of loop iterations), `solve_iterative` terminates and returns
the same success/failure boolean as `solve_backtrack` run on a fresh solver
of the same size, leaving the bit-identical board — in particular the
identical first solution, found by the same ascending-column order. -/
theorem solve_iterative_matches_backtrack (n : Nat) (hn : 0 < n)
    (fuel : Nat) (hf : iterFuel n ≤ fuel) :
    ∃ bk', solve_iterative n fuel =
      some ((solve_backtrack n).1, (solve_backtrack n).2.1, bk') := by
  obtain ⟨bk2, hsim⟩ := solve_backtrack_sim n
  obtain ⟨bk', hrun⟩ := iterGo_spec n fuel [] 0 [] (mkBoard n) 0
    (by simp) (by simpa using hn) (by omega)
    (by rw [boardOf_nil]; rfl)
    (by unfold iterFuel at hf; omega)
  have hrun' : iterGo n fuel [(0, 0)] [] (mkBoard n) 0 =
      some (match resume n [] 0 with
        | some res => (true, boardOf n res, bk')
        | none => (false, mkBoard n, bk')) := hrun
  have hres0 : resume n [] 0 = absRow n n [] := by
    rw [resume_nil, resumeF_zero n [] (by simpa using hn)]
    simp
  refine ⟨bk', ?_⟩
  unfold solve_iterative
  rw [if_neg (by omega), hrun', hres0]
  cases habs : absRow n n [] with
  | some res =>
    rw [habs] at hsim
    rw [hsim]
  | none =>
    rw [habs] at hsim
    rw [hsim]

/-- C3 witness at N = 4 with exactly the sufficient fuel. -/
theorem solve_iterative_matches_backtrack_witness :
    ∃ bk', solve_iterative 4 (iterFuel 4) =
      some ((solve_backtrack 4).1, (solve_backtrack 4).2.1, bk') :=
  solve_iterative_matches_backtrack 4 (by decide) (iterFuel 4) (Nat.le_refl _)

end NQueens
